import Mathlib

/-!
Shallow embedding of the texture-memory allocator in source/allocator.c.

Modelling conventions:
* The metadata pool `tm_blockpool` is represented by its occupancy: `pool` is
  the list of the 2048 slot tags, `true` where the C slot has `type != -1`
  (in use) and `false` where it has `type == -1` (free).  Each block record
  carries `id`, the index of the pool slot backing it, so acquisition and
  release of slots can be traced exactly.
* The singly linked lists `tm_freelist` and `tm_alloclist` are represented as
  Lean lists; the `next` pointers are the list order.
* `base` is a `uintptr_t`, `offset`, `size` and `tm_used` are `uint32_t`, on a
  32-bit target.  They are modelled as `Nat`.  In every state the theorems
  below speak about, all blocks lie inside one validly mapped region (whose
  size is itself a `uint32_t`), so none of the additions of the C code can
  wrap and none of its subtractions can go below zero; where a subtraction
  appears, the surrounding guard makes it exact, as noted in place.
* C `NULL` addresses are the value `0`.
-/

namespace VglAlloc

/-- TM_MAX_BLOCKS from allocator.c. -/
def TM_MAX_BLOCKS : Nat := 2048

/-- TM_ALIGNMENT from allocator.c. -/
def TM_ALIGNMENT : Nat := 8

/-- TM_TYPE_VRAM from allocator.c. -/
def TM_TYPE_VRAM : Int := 1

/-- TM_TYPE_RAM from allocator.c. -/
def TM_TYPE_RAM : Int := 2

/-- A block descriptor (`tm_block_t`).  The C `next` pointer is the list
order; `id` is the index of the descriptor slot in `tm_blockpool`. -/
structure Block where
  type : Int
  base : Nat
  offset : Nat
  size : Nat
  id : Nat
deriving DecidableEq, Repr

/-- The allocator state: pool occupancy (slot `i` is `true` when the C slot
has `type != -1`), `tm_blocknum`, the two lists and `tm_used`. -/
structure TMState where
  pool : List Bool
  blocknum : Nat
  freelist : List Block
  alloclist : List Block
  used : Nat
deriving DecidableEq, Repr

/-- The scan inside `heap_blk_new` (allocator.c lines 40-46): the index of the
first pool slot whose tag is free. -/
def poolFindFree : List Bool → Option Nat
  | [] => none
  | b :: rest => if b then (poolFindFree rest).map (· + 1) else some 0

/-- `heap_blk_new`: find the first free pool slot, mark it used (the C code
sets its `type` to `0`), bump `tm_blocknum` and return its index, or `none`
("NULL") when the pool is exhausted. -/
def heap_blk_new (s : TMState) : Option (Nat × TMState) :=
  match poolFindFree s.pool with
  | some i => some (i, { s with pool := s.pool.set i true, blocknum := s.blocknum + 1 })
  | none => none

/-- `heap_blk_release`: mark slot `i` free again (the C code sets `type = -1`)
and drop `tm_blocknum`. -/
def heap_blk_release (s : TMState) (i : Nat) : TMState :=
  { s with pool := s.pool.set i false, blocknum := s.blocknum - 1 }

/-- `heap_blk_mergeable`.  The three additions are `uintptr_t`/`uint32_t`
arithmetic; for blocks inside one mapped region they cannot wrap (see the
header comment), so plain `Nat` addition is used. -/
def heap_blk_mergeable (a b : Block) : Bool :=
  a.type == b.type && a.base + a.size == b.base && a.offset + a.size == b.offset

/-- Second half of `heap_blk_insert_free` (allocator.c lines 86-90): `block`
(already merged with its right neighbour when that was mergeable) sits between
`before` and `rest`; merge it into `prev` (the last element of `before`) when
mergeable, releasing the descriptor of `block`. -/
def insert_free_left (s : TMState) (before : List Block) (block : Block)
    (rest : List Block) : TMState :=
  match before.getLast? with
  | some p =>
    if heap_blk_mergeable p block then
      { heap_blk_release s block.id with
        freelist := before.dropLast ++ ({ p with size := p.size + block.size } :: rest) }
    else
      { s with freelist := before ++ (block :: rest) }
  | none => { s with freelist := before ++ (block :: rest) }

/-- `heap_blk_insert_free` (allocator.c lines 61-91).  The while loop stops at
the first free block whose base is not below `block.base`, so `before` and
`after` are exactly `takeWhile`/`dropWhile` of that test; then the new block
is linked in between them and merged with its right neighbour (`curr`, the
head of `after`) and its left neighbour (the last element of `before`) when
mergeable, releasing the absorbed descriptors. -/
def heap_blk_insert_free (s : TMState) (block : Block) : TMState :=
  let before := s.freelist.takeWhile (fun c => decide (c.base < block.base))
  let after := s.freelist.dropWhile (fun c => decide (c.base < block.base))
  match after with
  | curr :: rest =>
    if heap_blk_mergeable block curr then
      insert_free_left (heap_blk_release s curr.id) before
        { block with size := block.size + curr.size } rest
    else
      insert_free_left s before block (curr :: rest)
  | [] => insert_free_left s before block []

/-- Modelled from the spec: the `ALIGN` macro used by `heap_blk_alloc` lives
in `gpu_utils.h`, which is not among the provided sources.  The spec describes
the computed `skip` as the bytes needed to round the candidate base up to the
alignment, so `ALIGN x a` is the least multiple of `a` that is not below `x`
(for `a > 0`; the allocator only ever passes `TM_ALIGNMENT = 8`). -/
def ALIGN (x a : Nat) : Nat := ((x + a - 1) / a) * a

/-- The body of the fitting-block branch of `heap_blk_alloc` after the needed
descriptor slots have been acquired (allocator.c lines 120-168): carve the
leading skip block and the trailing unused block, unlink `curr` from the free
list, push the exact-size block onto the allocated list and account its size.
`skipId`/`unusedId` are the pool slots acquired for the two carves; they are
read exactly when the corresponding carve happens, mirroring the C invariant
that `skipBlock`/`unusedBlock` are non-NULL exactly when they are linked in.
The subtractions `curr.size - skip` and `curr1.size - size` are exact because
the branch guard gives `skip + size ≤ curr.size`. -/
def heap_blk_alloc_commit (s : TMState) (before : List Block) (curr : Block)
    (rest : List Block) (size skip skipId unusedId : Nat) : TMState × Option Block :=
  -- add block for skipped memory (lines 121-141)
  let before1 := if skip ≠ 0 then
      before ++ [⟨curr.type, curr.base, curr.offset, skip, skipId⟩] else before
  let curr1 := if skip ≠ 0 then
      { curr with base := curr.base + skip, offset := curr.offset + skip,
                  size := curr.size - skip }
    else curr
  -- add block for unused memory (lines 144-155); `curr` has been shrunk already
  let rest1 := if size ≠ curr1.size then
      ⟨curr1.type, curr1.base + size, curr1.offset + size, curr1.size - size, unusedId⟩ :: rest
    else rest
  let curr2 := if size ≠ curr1.size then { curr1 with size := size } else curr1
  -- unlink from free list, push onto alloc list, account (lines 157-168)
  ({ s with freelist := before1 ++ rest1,
            alloclist := curr2 :: s.alloclist,
            used := s.used + curr2.size }, some curr2)

/-- The search loop of `heap_blk_alloc` (allocator.c lines 95-174): `before`
is the already scanned part of the free list (all blocks before `curr`), `rem`
the rest.  For the first block of matching type that can hold the alignment
skip plus the size, the needed descriptors are acquired first (returning NULL
with the acquisitions undone when the pool is exhausted), then the splits are
committed; otherwise the scan advances. -/
def heap_blk_alloc_loop (s : TMState) (type : Int) (size alignment : Nat) :
    List Block → List Block → TMState × Option Block
  | _, [] => (s, none)
  | before, curr :: rest =>
    let skip := ALIGN curr.base alignment - curr.base
    if curr.type = type ∧ skip + size ≤ curr.size then
      -- allocate any blocks we need now to avoid complicated rollback
      if skip ≠ 0 then
        match heap_blk_new s with
        | none => (s, none)
        | some (skipId, s1) =>
          if skip + size ≠ curr.size then
            match heap_blk_new s1 with
            | none => (heap_blk_release s1 skipId, none)
            | some (unusedId, s2) =>
              heap_blk_alloc_commit s2 before curr rest size skip skipId unusedId
          else
            heap_blk_alloc_commit s1 before curr rest size skip skipId 0
      else
        if skip + size ≠ curr.size then
          match heap_blk_new s with
          | none => (s, none)
          | some (unusedId, s1) =>
            heap_blk_alloc_commit s1 before curr rest size skip 0 unusedId
        else
          heap_blk_alloc_commit s before curr rest size skip 0 0
    else
      heap_blk_alloc_loop s type size alignment (before ++ [curr]) rest

/-- `heap_blk_alloc` (allocator.c line 93).  Returns the updated state and the
allocated block (`none` is the C `NULL` result). -/
def heap_blk_alloc (s : TMState) (type : Int) (size alignment : Nat) :
    TMState × Option Block :=
  heap_blk_alloc_loop s type size alignment [] s.freelist

/-- `heap_blk_free` (allocator.c lines 180-203): scan the allocated list for
an exact base match; when absent return unchanged, else unlink the block,
subtract its size from `tm_used` (exact, since in the states the theorems
speak about `tm_used` is the sum of the allocated sizes) and insert it into
the free list. -/
def heap_blk_free (s : TMState) (base : Nat) : TMState :=
  let before := s.alloclist.takeWhile (fun c => decide (c.base ≠ base))
  let after := s.alloclist.dropWhile (fun c => decide (c.base ≠ base))
  match after with
  | [] => s
  | curr :: rest =>
    heap_blk_insert_free
      { s with alloclist := before ++ rest, used := s.used - curr.size } curr

/-- `heap_init` (allocator.c lines 205-211): reset the lists, the counter and
every pool tag to free.  The C code does not reset `tm_blocknum` (a static,
zero before the first call), so it is kept. -/
def heap_init (s : TMState) : TMState :=
  { s with freelist := [], alloclist := [], used := 0,
           pool := List.replicate TM_MAX_BLOCKS false }

/-- `heap_extend` (allocator.c lines 217-225): acquire a descriptor, fill it
with the whole new region and insert it as a free block.  The C code does not
check `heap_blk_new` for NULL (it is only called right after `heap_init`,
when the pool has free slots); the `none` branch, unreachable in that use, is
modelled as leaving the state unchanged. -/
def heap_extend (s : TMState) (type : Int) (base : Nat) (size : Nat) : TMState :=
  match heap_blk_new s with
  | some (i, s1) => heap_blk_insert_free s1 ⟨type, base, 0, size, i⟩
  | none => s

/-- `heap_alloc` (allocator.c lines 227-236): allocate and return the base
address of the block, or NULL. -/
def heap_alloc (s : TMState) (type : Int) (size alignment : Nat) :
    TMState × Option Nat :=
  match heap_blk_alloc s type size alignment with
  | (s1, some block) => (s1, some block.base)
  | (s1, none) => (s1, none)

/-- `heap_free` (allocator.c lines 238-240). -/
def heap_free (s : TMState) (addr : Nat) : TMState :=
  heap_blk_free s addr

/-- The whole state of allocator.c: the heap state plus the static region
bookkeeping of the texmem layer.  The region handle `tm_main_uid` plays no
part in any modelled operation and is omitted. -/
structure TexmemState where
  heap : TMState
  tm_main : Nat
  tm_main_size : Nat
  tm_main_type : Int
  tm_sub_type : Int
deriving DecidableEq, Repr

/-- SCE_KERNEL_MEMBLOCK_TYPE_USER_CDRAM_RW, an external vitasdk constant; only
equality of `maintype` with it matters to the modelled code. -/
def SCE_KERNEL_MEMBLOCK_TYPE_USER_CDRAM_RW : Int := 0x0C20D060

/-- `texmem_init` (allocator.c lines 244-254).  `gpu_alloc_map` is an external
collaborator; its result is the parameter `mapResult` (`none` means it
returned NULL, i.e. the region reservation failed).  Faithful to the C body:
the `assert(tm_main)` is a no-op in a release (NDEBUG) build and aborts in a
debug build, it never produces a failure return, and is modelled as a no-op;
and although the function is declared `uint32_t texmem_init(...)`, its body
contains no return statement, so no success or failure value is produced and
the embedding returns only the new state. -/
def texmem_init (s : TexmemState) (mapResult : Option Nat) (maintype : Int)
    (mainsize : Nat) : TexmemState :=
  let main := mapResult.getD 0
  let mt := if maintype = SCE_KERNEL_MEMBLOCK_TYPE_USER_CDRAM_RW
    then TM_TYPE_VRAM else TM_TYPE_RAM
  let st := if maintype = SCE_KERNEL_MEMBLOCK_TYPE_USER_CDRAM_RW
    then TM_TYPE_RAM else TM_TYPE_VRAM
  { heap := heap_extend (heap_init s.heap) mt main mainsize,
    tm_main := main, tm_main_size := mainsize,
    tm_main_type := mt, tm_sub_type := st }

/-- `texmem_alloc` (allocator.c lines 265-270): reject a zero size, raise a
size below `TM_ALIGNMENT` to `TM_ALIGNMENT`, delegate to `heap_alloc` with
the primary region type and alignment 8. -/
def texmem_alloc (s : TexmemState) (size : Nat) : TexmemState × Option Nat :=
  if size = 0 then (s, none)
  else
    let size1 := if size < TM_ALIGNMENT then TM_ALIGNMENT else size
    match heap_alloc s.heap s.tm_main_type size1 TM_ALIGNMENT with
    | (h, r) => ({ s with heap := h }, r)

/-- `texmem_free` (allocator.c lines 272-275): NULL is a no-op, otherwise
delegate to `heap_free`. -/
def texmem_free (s : TexmemState) (ptr : Nat) : TexmemState :=
  if ptr = 0 then s else { s with heap := heap_free s.heap ptr }

/-- `texmem_memused` (allocator.c lines 277-279). -/
def texmem_memused (s : TexmemState) : Nat :=
  s.heap.used

/-- The C static zero state before `texmem_init` runs: every pool slot has
`type == 0` (zero initialisation), which is "in use" for `heap_blk_new`. -/
def tm0 : TexmemState :=
  { heap := { pool := List.replicate TM_MAX_BLOCKS true, blocknum := 0,
              freelist := [], alloclist := [], used := 0 },
    tm_main := 0, tm_main_size := 0, tm_main_type := 0, tm_sub_type := 0 }

/-- States reachable from a `texmem_init` whose mapping succeeded at base `mb`
with `ms` bytes, by any sequence of `texmem_alloc` and `texmem_free` calls. -/
inductive Reachable (s0 : TexmemState) (maintype : Int) (mb ms : Nat) :
    TexmemState → Prop
  | init : Reachable s0 maintype mb ms (texmem_init s0 (some mb) maintype ms)
  | alloc (s : TexmemState) (size : Nat) : Reachable s0 maintype mb ms s →
      Reachable s0 maintype mb ms (texmem_alloc s size).1
  | free (s : TexmemState) (ptr : Nat) : Reachable s0 maintype mb ms s →
      Reachable s0 maintype mb ms (texmem_free s ptr)

/-! ### Pool helpers -/

lemma getElem?_set_of_eq {α : Type} :
    ∀ (l : List α) (i : Nat) (a : α), l[i]? = some a → l.set i a = l := by
  intro l
  induction l with
  | nil => intro i a h; simp at h
  | cons x xs ih =>
    intro i a h
    cases i with
    | zero => simp at h; simp [List.set, h]
    | succ j => simp at h; simp [List.set, ih j a h]

lemma poolFindFree_some :
    ∀ (l : List Bool) (i : Nat), poolFindFree l = some i → l[i]? = some false := by
  intro l
  induction l with
  | nil => intro i h; simp [poolFindFree] at h
  | cons b rest ih =>
    intro i h
    by_cases hb : b
    · rw [poolFindFree, if_pos hb] at h
      cases hr : poolFindFree rest with
      | none => rw [hr] at h; exact absurd h (by simp)
      | some j =>
        rw [hr] at h
        have hji : j + 1 = i := by simpa using h
        subst hji
        simpa using ih j hr
    · rw [poolFindFree, if_neg hb] at h
      have h0i : (0 : Nat) = i := by simpa using h
      subst h0i
      have hb0 : b = false := by
        cases b
        · rfl
        · exact absurd rfl hb
      simp [hb0]

lemma heap_blk_new_release_cancel {s s1 : TMState} {i : Nat}
    (h : heap_blk_new s = some (i, s1)) : heap_blk_release s1 i = s := by
  rw [heap_blk_new] at h
  cases hf : poolFindFree s.pool with
  | none => rw [hf] at h; exact absurd h (by simp)
  | some j =>
    rw [hf] at h
    simp only [Option.some_inj, Prod.mk.injEq] at h
    obtain ⟨rfl, rfl⟩ := h
    show TMState.mk ((s.pool.set j true).set j false) (s.blocknum + 1 - 1)
      s.freelist s.alloclist s.used = s
    rw [List.set_set, getElem?_set_of_eq s.pool j false (poolFindFree_some s.pool j hf),
      Nat.add_sub_cancel]

lemma heap_blk_new_lists {s s1 : TMState} {i : Nat}
    (h : heap_blk_new s = some (i, s1)) :
    s1.freelist = s.freelist ∧ s1.alloclist = s.alloclist ∧ s1.used = s.used := by
  rw [heap_blk_new] at h
  cases hf : poolFindFree s.pool with
  | none => rw [hf] at h; exact absurd h (by simp)
  | some j =>
    rw [hf] at h
    simp only [Option.some_inj, Prod.mk.injEq] at h
    obtain ⟨rfl, rfl⟩ := h
    exact ⟨rfl, rfl, rfl⟩

/-! ### C1: a failed allocation leaves the state exactly unchanged -/

lemma heap_blk_alloc_loop_none (s : TMState) (type : Int) (size alignment : Nat) :
    ∀ (rem before : List Block),
      (heap_blk_alloc_loop s type size alignment before rem).2 = none →
      (heap_blk_alloc_loop s type size alignment before rem).1 = s := by
  intro rem
  induction rem with
  | nil => intro before _; rfl
  | cons curr rest ih =>
    intro before h
    rw [heap_blk_alloc_loop] at h ⊢
    by_cases hfit : curr.type = type ∧ ALIGN curr.base alignment - curr.base + size ≤ curr.size
    · rw [if_pos hfit] at h ⊢
      by_cases hskip : ALIGN curr.base alignment - curr.base ≠ 0
      · rw [if_pos hskip] at h ⊢
        cases hn : heap_blk_new s with
        | none => rfl
        | some v =>
          obtain ⟨skipId, s1⟩ := v
          rw [hn] at h
          dsimp only at h ⊢
          by_cases hrem : ALIGN curr.base alignment - curr.base + size ≠ curr.size
          · simp only [if_pos hrem] at h ⊢
            cases hn2 : heap_blk_new s1 with
            | none => exact heap_blk_new_release_cancel hn
            | some v2 =>
              obtain ⟨unusedId, s2⟩ := v2
              rw [hn2] at h
              dsimp only at h
              simp [heap_blk_alloc_commit] at h
          · simp only [if_neg hrem] at h
            simp [heap_blk_alloc_commit] at h
      · rw [if_neg hskip] at h ⊢
        by_cases hrem : ALIGN curr.base alignment - curr.base + size ≠ curr.size
        · simp only [if_pos hrem] at h ⊢
          cases hn : heap_blk_new s with
          | none => rfl
          | some v =>
            obtain ⟨unusedId, s1⟩ := v
            rw [hn] at h
            dsimp only at h
            simp [heap_blk_alloc_commit] at h
        · simp only [if_neg hrem] at h
          simp [heap_blk_alloc_commit] at h
    · rw [if_neg hfit] at h ⊢
      exact ih (before ++ [curr]) h

/-- C1: if an allocation request fails — in particular when a fitting free
block is found but a descriptor slot needed for a split cannot be acquired
from the block pool — `heap_blk_alloc` returns the NULL result and the entire
allocator state (free list, allocated list, used counter, pool slot tags and
`tm_blocknum`) is exactly as it was before the call; no partial split is ever
committed. -/
theorem alloc_fail_state_unchanged (s : TMState) (type : Int) (size alignment : Nat)
    (h : (heap_blk_alloc s type size alignment).2 = none) :
    (heap_blk_alloc s type size alignment).1 = s :=
  heap_blk_alloc_loop_none s type size alignment s.freelist [] h

/-- A state whose pool is exhausted while its free list still holds a fitting
block: allocating from it exercises the descriptor-failure path of
`heap_blk_alloc`.  (`heap_blk_new` only looks at the slot tags, so a pool of
8 exhausted slots exercises the same path as the full 2048.) -/
def poolExhausted : TMState :=
  { pool := List.replicate 8 true, blocknum := 8,
    freelist := [⟨1, 16, 0, 100, 0⟩], alloclist := [], used := 0 }

/-- Witness for C1: in `poolExhausted` the request for 8 bytes fits the free
block but needs a remainder split, and no descriptor slot is available, so
the allocation returns NULL and the state is exactly unchanged. -/
theorem alloc_fail_state_unchanged_witness :
    (heap_blk_alloc poolExhausted 1 8 8).2 = none ∧
      (heap_blk_alloc poolExhausted 1 8 8).1 = poolExhausted :=
  ⟨by decide, alloc_fail_state_unchanged poolExhausted 1 8 8 (by decide)⟩

/-! ### Region blocks, address ranges and the heap invariant -/

/-- The blocks currently owned by the two lists. -/
def blocks (h : TMState) : List Block := h.freelist ++ h.alloclist

/-- Total size of a list of blocks. -/
def sumSizes (l : List Block) : Nat := (l.map Block.size).sum

/-- The block has the region type, lies inside the region `[mb, mb + ms)` and
its offset is its position inside the region. -/
def okBlock (mt : Int) (mb ms : Nat) (b : Block) : Prop :=
  b.type = mt ∧ mb ≤ b.base ∧ b.base + b.size ≤ mb + ms ∧ b.offset = b.base - mb

/-- The address ranges of the two blocks are disjoint. -/
def disjB (a b : Block) : Prop :=
  a.base + a.size ≤ b.base ∨ b.base + b.size ≤ a.base

/-- The first block ends strictly before the second begins: consecutive free
blocks are ordered, disjoint and non-adjacent (the free list stays fully
coalesced). -/
def gapB (a b : Block) : Prop := a.base + a.size < b.base

/-- The inductive invariant of the heap state over the single region
registered at `texmem_init` time: the used counter equals the allocated
total, every block sits inside the region with consistent type and offset,
all blocks have positive size, the free list is separated in ascending
order, all address ranges are pairwise disjoint, and the block sizes sum to
the region size. -/
structure HeapInv (mt : Int) (mb ms : Nat) (h : TMState) : Prop where
  used_eq : h.used = sumSizes h.alloclist
  okAll : ∀ b ∈ blocks h, okBlock mt mb ms b
  free_pos : ∀ b ∈ h.freelist, 0 < b.size
  alloc_pos : ∀ b ∈ h.alloclist, 0 < b.size
  free_gap : h.freelist.Chain' gapB
  disj : (blocks h).Pairwise disjB
  total : sumSizes h.freelist + sumSizes h.alloclist = ms

lemma sumSizes_nil : sumSizes [] = 0 := rfl

lemma sumSizes_cons (b : Block) (l : List Block) :
    sumSizes (b :: l) = b.size + sumSizes l := rfl

lemma sumSizes_append (l1 l2 : List Block) :
    sumSizes (l1 ++ l2) = sumSizes l1 + sumSizes l2 := by
  simp [sumSizes]

lemma disjB_symm : Symmetric disjB := by
  intro a b h
  rcases h with h | h
  · exact Or.inr h
  · exact Or.inl h

lemma heap_blk_mergeable_base {a c : Block} (h : heap_blk_mergeable a c = true) :
    a.base + a.size = c.base := by
  simp only [heap_blk_mergeable, Bool.and_eq_true, beq_iff_eq] at h
  exact h.1.2

lemma heap_blk_mergeable_iff {mt : Int} {mb ms : Nat} {a c : Block}
    (ha : okBlock mt mb ms a) (hc : okBlock mt mb ms c) :
    heap_blk_mergeable a c = true ↔ a.base + a.size = c.base := by
  obtain ⟨hat, hab, hae, hao⟩ := ha
  obtain ⟨hct, hcb, hce, hco⟩ := hc
  simp only [heap_blk_mergeable, Bool.and_eq_true, beq_iff_eq]
  constructor
  · rintro ⟨⟨-, hbase⟩, -⟩
    exact hbase
  · intro hbase
    refine ⟨⟨hat.trans hct.symm, hbase⟩, ?_⟩
    rw [hao, hco]
    omega

lemma dropWhile_head_false {α : Type} (p : α → Bool) :
    ∀ (l : List α) (c : α) (rest : List α), l.dropWhile p = c :: rest → p c = false := by
  intro l
  induction l with
  | nil => intro c rest h; simp [List.dropWhile] at h
  | cons x xs ih =>
    intro c rest h
    rw [List.dropWhile_cons] at h
    by_cases hx : p x = true
    · rw [if_pos hx] at h
      exact ih c rest h
    · rw [if_neg hx] at h
      cases h
      simpa using hx

/-- Extract from a pairwise-disjoint list the relation of one designated
element to all the others. -/
lemma pairwise_extract {X Y : List Block} {p : Block}
    (h : ((X ++ [p]) ++ Y).Pairwise disjB) :
    (∀ x ∈ X ++ Y, disjB p x) ∧ (X ++ Y).Pairwise disjB := by
  have hperm : List.Perm ((X ++ [p]) ++ Y) (p :: (X ++ Y)) := by
    rw [List.append_assoc]
    exact List.perm_middle
  have h2 := h.perm hperm (fun hab => disjB_symm hab)
  rw [List.pairwise_cons] at h2
  exact h2

/-- A block disjoint from two adjacent blocks is disjoint from their union
(absorbing the right one into the left one), provided it has positive size. -/
lemma disjB_absorb {a c x : Block} (hadj : a.base + a.size = c.base)
    (h1 : disjB a x) (h2 : disjB c x) (hx : 0 < x.size) :
    disjB { a with size := a.size + c.size } x := by
  have goal : a.base + (a.size + c.size) ≤ x.base ∨ x.base + x.size ≤ a.base := by
    rcases h1 with h1 | h1 <;> rcases h2 with h2 | h2 <;> omega
  exact goal

/-! ### Preservation of the invariant by `heap_blk_insert_free` -/

/-- What `insert_free_left` does to the free list when the inserted block is
separated from its neighbours except possibly for left adjacency: the
allocated list and the counter are untouched, and the free list stays
well-formed with its total grown by the inserted size. -/
lemma insert_free_left_spec (mt : Int) (mb ms : Nat) (s : TMState) (P : List Block)
    (blk : Block) (R : List Block)
    (hokP : ∀ x ∈ P, okBlock mt mb ms x)
    (hokR : ∀ x ∈ R, okBlock mt mb ms x)
    (hokb : okBlock mt mb ms blk)
    (hposP : ∀ x ∈ P, 0 < x.size)
    (hposR : ∀ x ∈ R, 0 < x.size)
    (hposA : ∀ x ∈ s.alloclist, 0 < x.size)
    (hposb : 0 < blk.size)
    (hchainP : P.Chain' gapB)
    (hchainR : R.Chain' gapB)
    (hPlast : ∀ p ∈ P.getLast?, p.base + p.size ≤ blk.base)
    (hRhead : ∀ r ∈ R.head?, blk.base + blk.size < r.base)
    (hpw : ((P ++ R) ++ s.alloclist).Pairwise disjB)
    (hdb : ∀ x ∈ (P ++ R) ++ s.alloclist, disjB blk x) :
    (insert_free_left s P blk R).alloclist = s.alloclist ∧
    (insert_free_left s P blk R).used = s.used ∧
    (∀ x ∈ (insert_free_left s P blk R).freelist, okBlock mt mb ms x) ∧
    (∀ x ∈ (insert_free_left s P blk R).freelist, 0 < x.size) ∧
    (insert_free_left s P blk R).freelist.Chain' gapB ∧
    ((insert_free_left s P blk R).freelist ++ s.alloclist).Pairwise disjB ∧
    sumSizes (insert_free_left s P blk R).freelist = sumSizes P + blk.size + sumSizes R := by
  cases hL : P.getLast? with
  | none =>
    have hPnil : P = [] := by simpa using hL
    subst hPnil
    have hres : insert_free_left s [] blk R = { s with freelist := [] ++ (blk :: R) } := by
      simp only [insert_free_left, List.getLast?_nil]
    rw [hres]
    refine ⟨rfl, rfl, ?_, ?_, ?_, ?_, ?_⟩
    · intro x hx
      rcases (by simpa using hx : x = blk ∨ x ∈ R) with rfl | hx
      · exact hokb
      · exact hokR x hx
    · intro x hx
      rcases (by simpa using hx : x = blk ∨ x ∈ R) with rfl | hx
      · exact hposb
      · exact hposR x hx
    · rw [List.nil_append, List.chain'_cons']
      exact ⟨hRhead, hchainR⟩
    · rw [List.nil_append, List.cons_append, List.pairwise_cons]
      constructor
      · intro x hx
        exact hdb x (by simpa using hx)
      · simpa using hpw
    · simp [sumSizes_cons, sumSizes_nil]
  | some p =>
    have hPdecomp : P.dropLast ++ [p] = P := List.dropLast_append_getLast? p hL
    have hpmem : p ∈ P := by
      rw [← hPdecomp]
      exact List.mem_append_right _ (List.mem_singleton.mpr rfl)
    have hgapPp : ∀ q ∈ P.dropLast.getLast?, gapB q p := by
      have hc := hchainP
      rw [← hPdecomp, List.chain'_append] at hc
      intro q hq
      exact hc.2.2 q hq p rfl
    have hchainX : P.dropLast.Chain' gapB := hchainP.prefix (List.dropLast_prefix P)
    by_cases hm : heap_blk_mergeable p blk = true
    · -- merge with the left neighbour
      have hres : insert_free_left s P blk R =
          { heap_blk_release s blk.id with
            freelist := P.dropLast ++ ({ p with size := p.size + blk.size } :: R) } := by
        simp only [insert_free_left, hL, hm, if_true]
      have hpb : p.base + p.size = blk.base := heap_blk_mergeable_base hm
      -- relation of p to everything else, and pairwise on the rest
      have hpw2 : (((P.dropLast ++ [p]) ++ R) ++ s.alloclist).Pairwise disjB := by
        rw [hPdecomp]; exact hpw
      have hpw3 : ((P.dropLast ++ [p]) ++ (R ++ s.alloclist)).Pairwise disjB := by
        rw [← List.append_assoc]; exact hpw2
      obtain ⟨hdp, hpwrest⟩ := pairwise_extract hpw3
      have hokp := hokP p hpmem
      have hokmerged : okBlock mt mb ms { p with size := p.size + blk.size } := by
        obtain ⟨ht, hlb, hub, hoff⟩ := hokp
        obtain ⟨-, -, hub2, -⟩ := hokb
        refine ⟨ht, hlb, ?_, hoff⟩
        show p.base + (p.size + blk.size) ≤ mb + ms
        omega
      rw [hres]
      refine ⟨rfl, rfl, ?_, ?_, ?_, ?_, ?_⟩
      · intro x hx
        rcases List.mem_append.mp hx with hx | hx
        · exact hokP x (by rw [← hPdecomp]; exact List.mem_append_left _ hx)
        · rcases (by simpa using hx : x = _ ∨ x ∈ R) with rfl | hx
          · exact hokmerged
          · exact hokR x hx
      · intro x hx
        rcases List.mem_append.mp hx with hx | hx
        · exact hposP x (by rw [← hPdecomp]; exact List.mem_append_left _ hx)
        · rcases (by simpa using hx : x = _ ∨ x ∈ R) with rfl | hx
          · simpa using Or.inl (hposP p hpmem)
          · exact hposR x hx
      · rw [List.chain'_append]
        refine ⟨hchainX, ?_, ?_⟩
        · rw [List.chain'_cons']
          constructor
          · intro r hr
            have := hRhead r hr
            show p.base + (p.size + blk.size) < r.base
            omega
          · exact hchainR
        · intro q hq y hy
          simp only [List.head?_cons, Option.mem_def, Option.some.injEq] at hy
          subst hy
          exact hgapPp q hq
      · rw [List.append_assoc, List.cons_append]
        have hperm : List.Perm
            ({ p with size := p.size + blk.size } :: (P.dropLast ++ (R ++ s.alloclist)))
            (P.dropLast ++ { p with size := p.size + blk.size } :: (R ++ s.alloclist)) :=
          List.perm_middle.symm
        refine List.Pairwise.perm ?_ hperm (fun hab => disjB_symm hab)
        rw [List.pairwise_cons]
        constructor
        · intro x hx
          refine disjB_absorb hpb (hdp x hx) ?_ ?_
          · refine hdb x ?_
            rcases List.mem_append.mp hx with hx | hx
            · exact List.mem_append_left _
                (List.mem_append_left _ (by rw [← hPdecomp]; exact List.mem_append_left _ hx))
            · rcases List.mem_append.mp hx with hx | hx
              · exact List.mem_append_left _ (List.mem_append_right _ hx)
              · exact List.mem_append_right _ hx
          · rcases List.mem_append.mp hx with hx | hx
            · exact hposP x (by rw [← hPdecomp]; exact List.mem_append_left _ hx)
            · rcases List.mem_append.mp hx with hx | hx
              · exact hposR x hx
              · exact hposA x hx
        · exact hpwrest
      · rw [sumSizes_append, sumSizes_cons]
        have hsum : sumSizes P = sumSizes P.dropLast + p.size := by
          conv_lhs => rw [← hPdecomp]
          rw [sumSizes_append, sumSizes_cons, sumSizes_nil]
          omega
        show sumSizes P.dropLast + (p.size + blk.size + sumSizes R) =
          sumSizes P + blk.size + sumSizes R
        omega
    · -- no merge with the left neighbour: strict gap
      have hm0 : heap_blk_mergeable p blk = false := by simpa using hm
      have hres : insert_free_left s P blk R = { s with freelist := P ++ (blk :: R) } := by
        simp only [insert_free_left, hL, hm0, Bool.false_eq_true, if_false]
      have hgap : gapB p blk := by
        have hne : p.base + p.size ≠ blk.base := by
          intro he
          exact hm ((heap_blk_mergeable_iff (hokP p hpmem) hokb).mpr he)
        have hle := hPlast p (by rw [hL]; exact rfl)
        show p.base + p.size < blk.base
        omega
      rw [hres]
      refine ⟨rfl, rfl, ?_, ?_, ?_, ?_, ?_⟩
      · intro x hx
        rcases List.mem_append.mp hx with hx | hx
        · exact hokP x hx
        · rcases (by simpa using hx : x = blk ∨ x ∈ R) with rfl | hx
          · exact hokb
          · exact hokR x hx
      · intro x hx
        rcases List.mem_append.mp hx with hx | hx
        · exact hposP x hx
        · rcases (by simpa using hx : x = blk ∨ x ∈ R) with rfl | hx
          · exact hposb
          · exact hposR x hx
      · rw [List.chain'_append]
        refine ⟨hchainP, ?_, ?_⟩
        · rw [List.chain'_cons']
          exact ⟨hRhead, hchainR⟩
        · intro q hq y hy
          simp only [List.head?_cons, Option.mem_def, Option.some.injEq] at hy
          subst hy
          rw [hL] at hq
          simp only [Option.mem_def, Option.some.injEq] at hq
          subst hq
          exact hgap
      · rw [List.append_assoc, List.cons_append]
        have hperm : List.Perm
            (blk :: (P ++ (R ++ s.alloclist)))
            (P ++ blk :: (R ++ s.alloclist)) :=
          List.perm_middle.symm
        refine List.Pairwise.perm ?_ hperm (fun hab => disjB_symm hab)
        rw [List.pairwise_cons]
        constructor
        · intro x hx
          refine hdb x ?_
          rcases List.mem_append.mp hx with hx | hx
          · exact List.mem_append_left _ (List.mem_append_left _ hx)
          · rcases List.mem_append.mp hx with hx | hx
            · exact List.mem_append_left _ (List.mem_append_right _ hx)
            · exact List.mem_append_right _ hx
        · rw [← List.append_assoc]
          exact hpw
      · rw [sumSizes_append, sumSizes_cons]
        omega

/-- What `heap_blk_insert_free` does to a well-formed heap when handed a block
that is inside the region and disjoint from every live block: the allocated
list and the counter are untouched, the free list remains well-formed (in
particular fully coalesced) and its total grows by the inserted size. -/
lemma heap_blk_insert_free_spec (mt : Int) (mb ms : Nat) (h : TMState) (b : Block)
    (hok : ∀ x ∈ blocks h, okBlock mt mb ms x)
    (hposF : ∀ x ∈ h.freelist, 0 < x.size)
    (hposA : ∀ x ∈ h.alloclist, 0 < x.size)
    (hchain : h.freelist.Chain' gapB)
    (hpw : (blocks h).Pairwise disjB)
    (hokb : okBlock mt mb ms b) (hposb : 0 < b.size)
    (hdb : ∀ x ∈ blocks h, disjB b x) :
    (heap_blk_insert_free h b).alloclist = h.alloclist ∧
    (heap_blk_insert_free h b).used = h.used ∧
    (∀ x ∈ (heap_blk_insert_free h b).freelist, okBlock mt mb ms x) ∧
    (∀ x ∈ (heap_blk_insert_free h b).freelist, 0 < x.size) ∧
    (heap_blk_insert_free h b).freelist.Chain' gapB ∧
    ((heap_blk_insert_free h b).freelist ++ h.alloclist).Pairwise disjB ∧
    sumSizes (heap_blk_insert_free h b).freelist = sumSizes h.freelist + b.size := by
  have hsplit : h.freelist.takeWhile (fun c => decide (c.base < b.base)) ++
      h.freelist.dropWhile (fun c => decide (c.base < b.base)) = h.freelist :=
    List.takeWhile_append_dropWhile _ _
  -- facts about the prefix P of blocks strictly below b
  have hmemP : ∀ x ∈ h.freelist.takeWhile (fun c => decide (c.base < b.base)),
      x.base < b.base := by
    intro x hx
    have hx2 := List.mem_takeWhile_imp hx
    simpa using hx2
  have hmemPF : ∀ x ∈ h.freelist.takeWhile (fun c => decide (c.base < b.base)),
      x ∈ h.freelist := by
    intro x hx
    rw [← hsplit]
    exact List.mem_append_left _ hx
  have hmemAF : ∀ x ∈ h.freelist.dropWhile (fun c => decide (c.base < b.base)),
      x ∈ h.freelist := by
    intro x hx
    rw [← hsplit]
    exact List.mem_append_right _ hx
  have hchains : (h.freelist.takeWhile (fun c => decide (c.base < b.base))).Chain' gapB ∧
      (h.freelist.dropWhile (fun c => decide (c.base < b.base))).Chain' gapB := by
    have hc := hchain
    rw [← hsplit, List.chain'_append] at hc
    exact ⟨hc.1, hc.2.1⟩
  have hpwF : ((h.freelist.takeWhile (fun c => decide (c.base < b.base)) ++
      h.freelist.dropWhile (fun c => decide (c.base < b.base))) ++
      h.alloclist).Pairwise disjB := by
    rw [hsplit]
    exact hpw
  have hdbF : ∀ x ∈ (h.freelist.takeWhile (fun c => decide (c.base < b.base)) ++
      h.freelist.dropWhile (fun c => decide (c.base < b.base))) ++ h.alloclist,
      disjB b x := by
    intro x hx
    rw [hsplit] at hx
    exact hdb x hx
  have hPlast : ∀ p ∈ (h.freelist.takeWhile (fun c => decide (c.base < b.base))).getLast?,
      p.base + p.size ≤ b.base := by
    intro p hp
    have hpmem := List.mem_of_mem_getLast? hp
    have hlt := hmemP p hpmem
    have hd := hdb p (List.mem_append_left _ (hmemPF p hpmem))
    rcases hd with hd | hd
    · omega
    · exact hd
  cases hA : h.freelist.dropWhile (fun c => decide (c.base < b.base)) with
  | nil =>
    have hres : heap_blk_insert_free h b =
        insert_free_left h (h.freelist.takeWhile (fun c => decide (c.base < b.base))) b [] := by
      simp only [heap_blk_insert_free, hA]
    have hfl : h.freelist.takeWhile (fun c => decide (c.base < b.base)) = h.freelist := by
      conv_rhs => rw [← hsplit]
      rw [hA, List.append_nil]
    obtain ⟨c1, c2, c3, c4, c5, c6, c7⟩ :=
      insert_free_left_spec mt mb ms h
        (h.freelist.takeWhile (fun c => decide (c.base < b.base))) b []
        (fun x hx => hok x (List.mem_append_left _ (hmemPF x hx)))
        (fun x hx => absurd hx (List.not_mem_nil x))
        hokb
        (fun x hx => hposF x (hmemPF x hx))
        (fun x hx => absurd hx (List.not_mem_nil x))
        hposA hposb hchains.1 List.chain'_nil hPlast
        (fun r hr => absurd hr (by simp))
        (by rw [List.append_nil]; rw [hfl]; exact hpw)
        (by rw [List.append_nil]; rw [hfl]; exact hdb)
    rw [hres]
    refine ⟨c1, c2, c3, c4, c5, c6, ?_⟩
    rw [c7, hfl, sumSizes_nil]
    omega
  | cons c rest =>
    have hchainA : (c :: rest).Chain' gapB := hA ▸ hchains.2
    have hcmem : c ∈ h.freelist := hmemAF c (by rw [hA]; exact List.mem_cons_self c rest)
    have hrestF : ∀ x ∈ rest, x ∈ h.freelist :=
      fun x hx => hmemAF x (by rw [hA]; exact List.mem_cons_of_mem c hx)
    have hcb : b.base ≤ c.base := by
      have := dropWhile_head_false (fun c => decide (c.base < b.base)) h.freelist c rest hA
      have hnot : ¬ (c.base < b.base) := by simpa using this
      omega
    have hcpos : 0 < c.size := hposF c hcmem
    have hbc_le : b.base + b.size ≤ c.base := by
      have hd := hdb c (List.mem_append_left _ hcmem)
      rcases hd with hd | hd
      · exact hd
      · omega
    have hflA : h.freelist = h.freelist.takeWhile (fun c => decide (c.base < b.base)) ++
        (c :: rest) := by
      rw [← hA, hsplit]
    -- the pairwise facts with c singled out
    have hpwA : ((h.freelist.takeWhile (fun c => decide (c.base < b.base)) ++ [c]) ++
        (rest ++ h.alloclist)).Pairwise disjB := by
      rw [List.append_assoc, List.singleton_append, ← List.cons_append, ← List.append_assoc,
        ← hA]
      exact hpwF
    obtain ⟨hdc, hpwrest⟩ := pairwise_extract hpwA
    by_cases hm : heap_blk_mergeable b c = true
    · -- b merges with its right neighbour c
      have hres : heap_blk_insert_free h b =
          insert_free_left (heap_blk_release h c.id)
            (h.freelist.takeWhile (fun c => decide (c.base < b.base)))
            { b with size := b.size + c.size } rest := by
        simp only [heap_blk_insert_free, hA, hm, if_true]
      have hbc : b.base + b.size = c.base := heap_blk_mergeable_base hm
      have hokc := hok c (List.mem_append_left _ hcmem)
      have hokb2 : okBlock mt mb ms { b with size := b.size + c.size } := by
        obtain ⟨ht, hlb, hub, hoff⟩ := hokb
        obtain ⟨-, -, hub2, -⟩ := hokc
        refine ⟨ht, hlb, ?_, hoff⟩
        show b.base + (b.size + c.size) ≤ mb + ms
        omega
      obtain ⟨c1, c2, c3, c4, c5, c6, c7⟩ :=
        insert_free_left_spec mt mb ms (heap_blk_release h c.id)
          (h.freelist.takeWhile (fun c => decide (c.base < b.base)))
          { b with size := b.size + c.size } rest
          (fun x hx => hok x (List.mem_append_left _ (hmemPF x hx)))
          (fun x hx => hok x (List.mem_append_left _ (hrestF x hx)))
          hokb2
          (fun x hx => hposF x (hmemPF x hx))
          (fun x hx => hposF x (hrestF x hx))
          hposA
          (by show 0 < b.size + c.size; omega)
          hchains.1
          (hchainA.tail)
          (by intro p hp; exact hPlast p hp)
          (by
            intro r hr
            have := List.chain'_cons'.mp hchainA
            have hgap := this.1 r hr
            show b.base + (b.size + c.size) < r.base
            have : c.base + c.size < r.base := hgap
            omega)
          (by rw [List.append_assoc]; exact hpwrest)
          (by
            intro x hx
            have hx2 : x ∈ h.freelist.takeWhile (fun c => decide (c.base < b.base)) ++
                (rest ++ h.alloclist) := by
              rw [← List.append_assoc]
              exact hx
            refine disjB_absorb hbc ?_ (hdc x hx2) ?_
            · refine hdbF x ?_
              rcases List.mem_append.mp hx2 with hy | hy
              · exact List.mem_append_left _ (List.mem_append_left _ hy)
              · rcases List.mem_append.mp hy with hy | hy
                · exact List.mem_append_left _
                    (List.mem_append_right _ (by rw [hA]; exact List.mem_cons_of_mem c hy))
                · exact List.mem_append_right _ hy
            · rcases List.mem_append.mp hx2 with hy | hy
              · exact hposF x (hmemPF x hy)
              · rcases List.mem_append.mp hy with hy | hy
                · exact hposF x (hrestF x hy)
                · exact hposA x hy)
      rw [hres]
      refine ⟨c1, c2, c3, c4, c5, c6, ?_⟩
      rw [c7]
      have hsum : sumSizes h.freelist =
          sumSizes (h.freelist.takeWhile (fun c => decide (c.base < b.base))) +
            (c.size + sumSizes rest) := by
        conv_lhs => rw [hflA]
        rw [sumSizes_append, sumSizes_cons]
      show sumSizes (h.freelist.takeWhile (fun c => decide (c.base < b.base))) +
          (b.size + c.size) + sumSizes rest = sumSizes h.freelist + b.size
      omega
    · -- no right merge: strict gap between b and c
      have hm0 : heap_blk_mergeable b c = false := by simpa using hm
      have hres : heap_blk_insert_free h b =
          insert_free_left h (h.freelist.takeWhile (fun c => decide (c.base < b.base))) b
            (c :: rest) := by
        simp only [heap_blk_insert_free, hA, hm0, Bool.false_eq_true, if_false]
      have hokc := hok c (List.mem_append_left _ hcmem)
      have hgapbc : gapB b c := by
        have hne : b.base + b.size ≠ c.base := by
          intro he
          exact hm ((heap_blk_mergeable_iff hokb hokc).mpr he)
        show b.base + b.size < c.base
        omega
      obtain ⟨c1, c2, c3, c4, c5, c6, c7⟩ :=
        insert_free_left_spec mt mb ms h
          (h.freelist.takeWhile (fun c => decide (c.base < b.base))) b (c :: rest)
          (fun x hx => hok x (List.mem_append_left _ (hmemPF x hx)))
          (fun x hx => hok x (List.mem_append_left _ (hmemAF x (hA ▸ hx))))
          hokb
          (fun x hx => hposF x (hmemPF x hx))
          (fun x hx => hposF x (hmemAF x (hA ▸ hx)))
          hposA hposb hchains.1 hchainA hPlast
          (by
            intro r hr
            simp only [List.head?_cons, Option.mem_def, Option.some.injEq] at hr
            subst hr
            exact hgapbc)
          (by rw [← hA]; exact hpwF)
          (by rw [← hA]; exact hdbF)
      rw [hres]
      refine ⟨c1, c2, c3, c4, c5, c6, ?_⟩
      rw [c7]
      have hsum : sumSizes h.freelist =
          sumSizes (h.freelist.takeWhile (fun c => decide (c.base < b.base))) +
            sumSizes (c :: rest) := by
        conv_lhs => rw [hflA]
        rw [sumSizes_append]
      omega

/-! ### Preservation of the invariant by `heap_blk_alloc` -/

/-- A block contained in the span of a block that is disjoint from a third
block is itself disjoint from that third block. -/
lemma disjB_within {y c x : Block} (h1 : c.base ≤ y.base)
    (h2 : y.base + y.size ≤ c.base + c.size) (hd : disjB c x) : disjB y x := by
  rcases hd with hd | hd
  · exact Or.inl (by omega)
  · exact Or.inr (by omega)

/-- Canonical form of the four fields of `heap_blk_alloc_commit` that matter
to the invariant, under the fit guard: the free list gets the (possibly
empty) skip and unused carves in place of `curr`, and the exact-size block
`⟨curr.type, curr.base + skip, curr.offset + skip, size, curr.id⟩` moves to
the allocated list with its size accounted. -/
lemma heap_blk_alloc_commit_fields (s : TMState) (before : List Block) (curr : Block)
    (rest : List Block) (size skip skipId unusedId : Nat)
    (hfit : skip + size ≤ curr.size) :
    (heap_blk_alloc_commit s before curr rest size skip skipId unusedId).1.freelist =
        before ++
          ((if skip = 0 then [] else [⟨curr.type, curr.base, curr.offset, skip, skipId⟩]) ++
            ((if skip + size = curr.size then [] else
                [⟨curr.type, curr.base + skip + size, curr.offset + skip + size,
                  curr.size - skip - size, unusedId⟩]) ++ rest)) ∧
      (heap_blk_alloc_commit s before curr rest size skip skipId unusedId).1.alloclist =
        ⟨curr.type, curr.base + skip, curr.offset + skip, size, curr.id⟩ :: s.alloclist ∧
      (heap_blk_alloc_commit s before curr rest size skip skipId unusedId).1.used =
        s.used + size ∧
      (heap_blk_alloc_commit s before curr rest size skip skipId unusedId).2 =
        some ⟨curr.type, curr.base + skip, curr.offset + skip, size, curr.id⟩ := by
  by_cases hs : skip = 0 <;> by_cases h2 : skip + size = curr.size
  · subst hs
    have h3 : size = curr.size := by omega
    subst h3
    simp [heap_blk_alloc_commit, Block.mk.injEq]
  · subst hs
    have h3 : ¬ size = curr.size := by omega
    simp [heap_blk_alloc_commit, h3, Block.mk.injEq]
  · have h3 : size = curr.size - skip := by omega
    have h4 : ¬ skip = 0 := hs
    simp [heap_blk_alloc_commit, h4, ← h3, Block.mk.injEq]
    omega
  · have h3 : ¬ size = curr.size - skip := by omega
    have h4 : ¬ skip = 0 := hs
    simp [heap_blk_alloc_commit, h4, h3, h2, Block.mk.injEq]

/-- Committing an allocation split preserves the heap invariant: the carves
tile exactly the span of the chosen free block `curr`, so bounds, separation,
disjointness and the size total all carry over. -/
lemma heap_blk_alloc_commit_inv (mt : Int) (mb ms : Nat) (s : TMState)
    (before : List Block) (curr : Block) (rest : List Block)
    (size skip skipId unusedId : Nat)
    (hfl : s.freelist = before ++ curr :: rest)
    (hused : s.used = sumSizes s.alloclist)
    (hok : ∀ x ∈ s.freelist ++ s.alloclist, okBlock mt mb ms x)
    (hposF : ∀ x ∈ s.freelist, 0 < x.size)
    (hposA : ∀ x ∈ s.alloclist, 0 < x.size)
    (hchain : s.freelist.Chain' gapB)
    (hpw : (s.freelist ++ s.alloclist).Pairwise disjB)
    (htotal : sumSizes s.freelist + sumSizes s.alloclist = ms)
    (hsize : 0 < size)
    (hfit : skip + size ≤ curr.size) :
    HeapInv mt mb ms (heap_blk_alloc_commit s before curr rest size skip skipId unusedId).1 := by
  obtain ⟨hF, hA, hU, -⟩ :=
    heap_blk_alloc_commit_fields s before curr rest size skip skipId unusedId hfit
  -- decomposition facts about the old state
  have hcurrmem : curr ∈ s.freelist := by
    rw [hfl]
    exact List.mem_append_right _ (List.mem_cons_self curr rest)
  have hokcurr : okBlock mt mb ms curr := hok curr (List.mem_append_left _ hcurrmem)
  have hmemB : ∀ x ∈ before, x ∈ s.freelist := by
    intro x hx; rw [hfl]; exact List.mem_append_left _ hx
  have hmemR : ∀ x ∈ rest, x ∈ s.freelist := by
    intro x hx; rw [hfl]; exact List.mem_append_right _ (List.mem_cons_of_mem _ hx)
  have hchain2 := hchain
  rw [hfl, List.chain'_append] at hchain2
  obtain ⟨hchainB, hchainCR, hcross⟩ := hchain2
  have hheadrest : ∀ r ∈ rest.head?, gapB curr r := (List.chain'_cons'.mp hchainCR).1
  have hchainR : rest.Chain' gapB := (List.chain'_cons'.mp hchainCR).2
  have hpwflat : ((before ++ curr :: rest) ++ s.alloclist).Pairwise disjB := by
    rw [← hfl]; exact hpw
  have hpw2 : ((before ++ [curr]) ++ (rest ++ s.alloclist)).Pairwise disjB := by
    have e : (before ++ [curr]) ++ (rest ++ s.alloclist) =
        (before ++ curr :: rest) ++ s.alloclist := by simp
    rw [e]; exact hpwflat
  obtain ⟨hdcurr, hpwrest⟩ := pairwise_extract hpw2
  have hpwrest2 := hpwrest
  rw [List.pairwise_append] at hpwrest2
  obtain ⟨hPB, hPRA, hFB⟩ := hpwrest2
  -- the new blocks and their containment in the span of curr
  have hnewd : ∀ (y : Block), curr.base ≤ y.base →
      y.base + y.size ≤ curr.base + curr.size →
      ∀ x ∈ before ++ (rest ++ s.alloclist), disjB y x :=
    fun y hy1 hy2 x hx => disjB_within hy1 hy2 (hdcurr x hx)
  have hsbL : ∀ x ∈ (if skip = 0 then ([] : List Block) else
      [⟨curr.type, curr.base, curr.offset, skip, skipId⟩]),
      x = ⟨curr.type, curr.base, curr.offset, skip, skipId⟩ ∧ 0 < skip := by
    intro x hx
    by_cases h0 : skip = 0
    · rw [if_pos h0] at hx; exact absurd hx (List.not_mem_nil x)
    · rw [if_neg h0] at hx; exact ⟨List.mem_singleton.mp hx, by omega⟩
  have hubL : ∀ x ∈ (if skip + size = curr.size then ([] : List Block) else
      [⟨curr.type, curr.base + skip + size, curr.offset + skip + size,
        curr.size - skip - size, unusedId⟩]),
      x = ⟨curr.type, curr.base + skip + size, curr.offset + skip + size,
        curr.size - skip - size, unusedId⟩ ∧ skip + size < curr.size := by
    intro x hx
    by_cases h1 : skip + size = curr.size
    · rw [if_pos h1] at hx; exact absurd hx (List.not_mem_nil x)
    · rw [if_neg h1] at hx; exact ⟨List.mem_singleton.mp hx, by omega⟩
  obtain ⟨htc, hlbc, hubc, hoffc⟩ := hokcurr
  constructor
  -- used_eq
  · rw [hU, hA, sumSizes_cons]
    show s.used + size = size + sumSizes s.alloclist
    omega
  -- okAll
  · intro x hx
    rw [blocks, hF, hA] at hx
    rcases List.mem_append.mp hx with hx | hx
    · rcases List.mem_append.mp hx with hx | hx
      · exact hok x (List.mem_append_left _ (hmemB x hx))
      · rcases List.mem_append.mp hx with hx | hx
        · obtain ⟨rfl, h0⟩ := hsbL x hx
          exact ⟨htc, hlbc, by show curr.base + skip ≤ mb + ms; omega,
            by show curr.offset = curr.base - mb; exact hoffc⟩
        · rcases List.mem_append.mp hx with hx | hx
          · obtain ⟨rfl, h1⟩ := hubL x hx
            refine ⟨htc, by show mb ≤ curr.base + skip + size; omega,
              by show curr.base + skip + size + (curr.size - skip - size) ≤ mb + ms; omega,
              ?_⟩
            show curr.offset + skip + size = curr.base + skip + size - mb
            omega
          · exact hok x (List.mem_append_left _ (hmemR x hx))
    · rcases List.mem_cons.mp hx with rfl | hx
      · refine ⟨htc, by show mb ≤ curr.base + skip; omega,
          by show curr.base + skip + size ≤ mb + ms; omega, ?_⟩
        show curr.offset + skip = curr.base + skip - mb
        omega
      · exact hok x (List.mem_append_right _ hx)
  -- free_pos
  · intro x hx
    rw [hF] at hx
    rcases List.mem_append.mp hx with hx | hx
    · exact hposF x (hmemB x hx)
    · rcases List.mem_append.mp hx with hx | hx
      · obtain ⟨rfl, h0⟩ := hsbL x hx
        exact h0
      · rcases List.mem_append.mp hx with hx | hx
        · obtain ⟨rfl, h1⟩ := hubL x hx
          show 0 < curr.size - skip - size
          omega
        · exact hposF x (hmemR x hx)
  -- alloc_pos
  · intro x hx
    rw [hA] at hx
    rcases List.mem_cons.mp hx with rfl | hx
    · exact hsize
    · exact hposA x hx
  -- free_gap
  · rw [hF]
    by_cases h0 : skip = 0 <;> by_cases h1 : skip + size = curr.size
    · simp only [if_pos h0, if_pos h1, List.nil_append]
      rw [List.chain'_append]
      refine ⟨hchainB, hchainR, ?_⟩
      intro q hq r hr
      have hqc := hcross q hq curr rfl
      have hcr : gapB curr r := by
        cases rest with
        | nil => simp at hr
        | cons r0 rest0 =>
          simp only [List.head?_cons, Option.mem_def, Option.some.injEq] at hr
          subst hr
          exact hheadrest r0 rfl
      show q.base + q.size < r.base
      have e1 : q.base + q.size < curr.base := hqc
      have e2 : curr.base + curr.size < r.base := hcr
      omega
    · simp only [if_pos h0, if_neg h1, List.nil_append, List.singleton_append]
      rw [List.chain'_append]
      refine ⟨hchainB, ?_, ?_⟩
      · rw [List.chain'_cons']
        refine ⟨?_, hchainR⟩
        intro r hr
        have hcr := hheadrest r hr
        show curr.base + skip + size + (curr.size - skip - size) < r.base
        have : curr.base + curr.size < r.base := hcr
        omega
      · intro q hq y hy
        simp only [List.head?_cons, Option.mem_def, Option.some.injEq] at hy
        subst hy
        have hqc := hcross q hq curr rfl
        show q.base + q.size < curr.base + skip + size
        have : q.base + q.size < curr.base := hqc
        omega
    · simp only [if_neg h0, if_pos h1, List.append_nil, List.singleton_append]
      rw [List.chain'_append]
      refine ⟨hchainB, ?_, ?_⟩
      · rw [List.chain'_cons']
        refine ⟨?_, hchainR⟩
        intro r hr
        have hcr := hheadrest r hr
        show curr.base + skip < r.base
        have : curr.base + curr.size < r.base := hcr
        omega
      · intro q hq y hy
        simp only [List.head?_cons, Option.mem_def, Option.some.injEq] at hy
        subst hy
        have hqc := hcross q hq curr rfl
        show q.base + q.size < curr.base
        exact hqc
    · simp only [if_neg h0, if_neg h1, List.singleton_append]
      rw [List.chain'_append]
      refine ⟨hchainB, ?_, ?_⟩
      · rw [List.chain'_cons']
        refine ⟨?_, ?_⟩
        · intro y hy
          simp only [List.head?_cons, Option.mem_def, Option.some.injEq] at hy
          subst hy
          show curr.base + skip < curr.base + skip + size
          omega
        · rw [List.chain'_cons']
          refine ⟨?_, hchainR⟩
          intro r hr
          have hcr := hheadrest r hr
          show curr.base + skip + size + (curr.size - skip - size) < r.base
          have : curr.base + curr.size < r.base := hcr
          omega
      · intro q hq y hy
        simp only [List.head?_cons, Option.mem_def, Option.some.injEq] at hy
        subst hy
        have hqc := hcross q hq curr rfl
        show q.base + q.size < curr.base
        exact hqc
  -- disj
  · rw [blocks, hF, hA]
    -- split the old pairwise facts into the six group relations
    have hPRA2 := hPRA
    rw [List.pairwise_append] at hPRA2
    obtain ⟨hPR, hPA, hFRA⟩ := hPRA2
    -- every new block lies in the span of curr, hence inherits its disjointness
    have hdnew : ∀ (y : Block), curr.base ≤ y.base →
        y.base + y.size ≤ curr.base + curr.size →
        (∀ x ∈ before, disjB y x) ∧ (∀ x ∈ rest, disjB y x) ∧
          (∀ x ∈ s.alloclist, disjB y x) := by
      intro y hy1 hy2
      refine ⟨?_, ?_, ?_⟩
      · intro x hx
        exact disjB_within hy1 hy2 (hdcurr x (List.mem_append_left _ hx))
      · intro x hx
        exact disjB_within hy1 hy2
          (hdcurr x (List.mem_append_right _ (List.mem_append_left _ hx)))
      · intro x hx
        exact disjB_within hy1 hy2
          (hdcurr x (List.mem_append_right _ (List.mem_append_right _ hx)))
    have hdSB := hdnew ⟨curr.type, curr.base, curr.offset, skip, skipId⟩
      (by omega : curr.base ≤ curr.base)
      (by omega : curr.base + skip ≤ curr.base + curr.size)
    have hdUB := hdnew ⟨curr.type, curr.base + skip + size, curr.offset + skip + size,
        curr.size - skip - size, unusedId⟩
      (by omega : curr.base ≤ curr.base + skip + size)
      (by omega : curr.base + skip + size + (curr.size - skip - size) ≤
        curr.base + curr.size)
    have hdC2 := hdnew ⟨curr.type, curr.base + skip, curr.offset + skip, size, curr.id⟩
      (by omega : curr.base ≤ curr.base + skip)
      (by omega : curr.base + skip + size ≤ curr.base + curr.size)
    have hd_sb_c2 : disjB ⟨curr.type, curr.base, curr.offset, skip, skipId⟩
        ⟨curr.type, curr.base + skip, curr.offset + skip, size, curr.id⟩ :=
      Or.inl (by omega : curr.base + skip ≤ curr.base + skip)
    have hd_sb_ub : disjB ⟨curr.type, curr.base, curr.offset, skip, skipId⟩
        ⟨curr.type, curr.base + skip + size, curr.offset + skip + size,
          curr.size - skip - size, unusedId⟩ :=
      Or.inl (by omega : curr.base + skip ≤ curr.base + skip + size)
    have hd_c2_ub : disjB ⟨curr.type, curr.base + skip, curr.offset + skip, size, curr.id⟩
        ⟨curr.type, curr.base + skip + size, curr.offset + skip + size,
          curr.size - skip - size, unusedId⟩ :=
      Or.inl (by omega : curr.base + skip + size ≤ curr.base + skip + size)
    rw [List.pairwise_append]
    refine ⟨?_, ?_, ?_⟩
    · -- the new free list is pairwise disjoint
      rw [List.pairwise_append]
      refine ⟨hPB, ?_, ?_⟩
      · rw [List.pairwise_append]
        refine ⟨?_, ?_, ?_⟩
        · by_cases h0 : skip = 0 <;> simp [h0]
        · rw [List.pairwise_append]
          refine ⟨?_, hPR, ?_⟩
          · by_cases h1 : skip + size = curr.size <;> simp [h1]
          · intro a ha b hb
            obtain ⟨rfl, -⟩ := hubL a ha
            exact hdUB.2.1 b hb
        · intro a ha b hb
          obtain ⟨rfl, -⟩ := hsbL a ha
          rcases List.mem_append.mp hb with hb | hb
          · obtain ⟨rfl, -⟩ := hubL b hb
            exact hd_sb_ub
          · exact hdSB.2.1 b hb
      · intro a ha b hb
        rcases List.mem_append.mp hb with hb | hb
        · obtain ⟨rfl, -⟩ := hsbL b hb
          exact disjB_symm (hdSB.1 a ha)
        · rcases List.mem_append.mp hb with hb | hb
          · obtain ⟨rfl, -⟩ := hubL b hb
            exact disjB_symm (hdUB.1 a ha)
          · exact hFB a ha b (List.mem_append_left _ hb)
    · -- c2 against the allocated list
      rw [List.pairwise_cons]
      exact ⟨hdC2.2.2, hPA⟩
    · -- the new free list against c2 and the allocated list
      intro a ha b hb
      rcases List.mem_cons.mp hb with rfl | hb
      · rcases List.mem_append.mp ha with ha | ha
        · exact disjB_symm (hdC2.1 a ha)
        · rcases List.mem_append.mp ha with ha | ha
          · obtain ⟨rfl, -⟩ := hsbL a ha
            exact hd_sb_c2
          · rcases List.mem_append.mp ha with ha | ha
            · obtain ⟨rfl, -⟩ := hubL a ha
              exact disjB_symm hd_c2_ub
            · exact disjB_symm (hdC2.2.1 a ha)
      · rcases List.mem_append.mp ha with ha | ha
        · exact hFB a ha b (List.mem_append_right _ hb)
        · rcases List.mem_append.mp ha with ha | ha
          · obtain ⟨rfl, -⟩ := hsbL a ha
            exact hdSB.2.2 b hb
          · rcases List.mem_append.mp ha with ha | ha
            · obtain ⟨rfl, -⟩ := hubL a ha
              exact hdUB.2.2 b hb
            · exact hFRA a ha b hb
  -- total
  · rw [hF, hA]
    have hsb : sumSizes (if skip = 0 then ([] : List Block) else
        [⟨curr.type, curr.base, curr.offset, skip, skipId⟩]) = skip := by
      by_cases h0 : skip = 0 <;> simp [h0, sumSizes]
    have hub : sumSizes (if skip + size = curr.size then ([] : List Block) else
        [⟨curr.type, curr.base + skip + size, curr.offset + skip + size,
          curr.size - skip - size, unusedId⟩]) = curr.size - skip - size := by
      by_cases h1 : skip + size = curr.size
      · simp [h1, sumSizes]
        omega
      · simp [h1, sumSizes]
    rw [sumSizes_append, sumSizes_append, sumSizes_append, hsb, hub, sumSizes_cons]
    have hfsum : sumSizes s.freelist = sumSizes before + (curr.size + sumSizes rest) := by
      rw [hfl, sumSizes_append, sumSizes_cons]
    show sumSizes before + (skip + (curr.size - skip - size + sumSizes rest)) +
      (size + sumSizes s.alloclist) = ms
    omega

/-- The heap invariant does not mention the pool tags or `tm_blocknum`, so it
transports along any state change that keeps the lists and the counter. -/
lemma HeapInv_pool_irrel {mt : Int} {mb ms : Nat} {s s' : TMState}
    (hf : s'.freelist = s.freelist) (ha : s'.alloclist = s.alloclist)
    (hu : s'.used = s.used) (h : HeapInv mt mb ms s) : HeapInv mt mb ms s' := by
  constructor
  · rw [hu, ha]; exact h.used_eq
  · intro b hb
    rw [blocks, hf, ha] at hb
    exact h.okAll b hb
  · rw [hf]; exact h.free_pos
  · rw [ha]; exact h.alloc_pos
  · rw [hf]; exact h.free_gap
  · rw [blocks, hf, ha]; exact h.disj
  · rw [hf, ha]; exact h.total

/-- The search loop of `heap_blk_alloc` preserves the heap invariant, whether
it fails (state unchanged up to a cancelled acquisition) or commits a split. -/
lemma heap_blk_alloc_loop_inv (mt : Int) (mb ms : Nat) (s : TMState) (type : Int)
    (size alignment : Nat) (hI : HeapInv mt mb ms s) (hsize : 0 < size) :
    ∀ (rem before : List Block), s.freelist = before ++ rem →
      HeapInv mt mb ms (heap_blk_alloc_loop s type size alignment before rem).1 := by
  intro rem
  induction rem with
  | nil => intro before _; exact hI
  | cons curr rest ih =>
    intro before hfl
    rw [heap_blk_alloc_loop]
    by_cases hfit : curr.type = type ∧ ALIGN curr.base alignment - curr.base + size ≤ curr.size
    · rw [if_pos hfit]
      by_cases hskip : ALIGN curr.base alignment - curr.base ≠ 0
      · rw [if_pos hskip]
        cases hn : heap_blk_new s with
        | none => exact hI
        | some v =>
          obtain ⟨i1, s1⟩ := v
          obtain ⟨he1f, he1a, he1u⟩ := heap_blk_new_lists hn
          have hI1 : HeapInv mt mb ms s1 := HeapInv_pool_irrel he1f he1a he1u hI
          dsimp only
          by_cases hrem : ALIGN curr.base alignment - curr.base + size ≠ curr.size
          · simp only [if_pos hrem]
            cases hn2 : heap_blk_new s1 with
            | none =>
              exact @HeapInv_pool_irrel mt mb ms s1 (heap_blk_release s1 i1) rfl rfl rfl hI1
            | some v2 =>
              obtain ⟨i2, s2⟩ := v2
              obtain ⟨he2f, he2a, he2u⟩ := heap_blk_new_lists hn2
              have hI2 : HeapInv mt mb ms s2 := HeapInv_pool_irrel he2f he2a he2u hI1
              dsimp only
              exact heap_blk_alloc_commit_inv mt mb ms s2 before curr rest size
                (ALIGN curr.base alignment - curr.base) i1 i2
                (by rw [he2f, he1f]; exact hfl) hI2.used_eq hI2.okAll hI2.free_pos
                hI2.alloc_pos hI2.free_gap hI2.disj hI2.total hsize hfit.2
          · simp only [if_neg hrem]
            exact heap_blk_alloc_commit_inv mt mb ms s1 before curr rest size
              (ALIGN curr.base alignment - curr.base) i1 0
              (by rw [he1f]; exact hfl) hI1.used_eq hI1.okAll hI1.free_pos
              hI1.alloc_pos hI1.free_gap hI1.disj hI1.total hsize hfit.2
      · rw [if_neg hskip]
        by_cases hrem : ALIGN curr.base alignment - curr.base + size ≠ curr.size
        · simp only [if_pos hrem]
          cases hn : heap_blk_new s with
          | none => exact hI
          | some v =>
            obtain ⟨i1, s1⟩ := v
            obtain ⟨he1f, he1a, he1u⟩ := heap_blk_new_lists hn
            have hI1 : HeapInv mt mb ms s1 := HeapInv_pool_irrel he1f he1a he1u hI
            dsimp only
            exact heap_blk_alloc_commit_inv mt mb ms s1 before curr rest size
              (ALIGN curr.base alignment - curr.base) 0 i1
              (by rw [he1f]; exact hfl) hI1.used_eq hI1.okAll hI1.free_pos
              hI1.alloc_pos hI1.free_gap hI1.disj hI1.total hsize hfit.2
        · simp only [if_neg hrem]
          exact heap_blk_alloc_commit_inv mt mb ms s before curr rest size
            (ALIGN curr.base alignment - curr.base) 0 0
            hfl hI.used_eq hI.okAll hI.free_pos
            hI.alloc_pos hI.free_gap hI.disj hI.total hsize hfit.2
    · rw [if_neg hfit]
      refine ih (before ++ [curr]) ?_
      rw [hfl]
      simp

/-- `heap_blk_alloc` preserves the heap invariant. -/
lemma heap_blk_alloc_inv (mt : Int) (mb ms : Nat) (s : TMState) (type : Int)
    (size alignment : Nat) (hI : HeapInv mt mb ms s) (hsize : 0 < size) :
    HeapInv mt mb ms (heap_blk_alloc s type size alignment).1 :=
  heap_blk_alloc_loop_inv mt mb ms s type size alignment hI hsize s.freelist [] rfl

/-! ### Preservation of the invariant by `heap_blk_free` -/

lemma heap_blk_free_inv (mt : Int) (mb ms : Nat) (s : TMState) (base : Nat)
    (hI : HeapInv mt mb ms s) : HeapInv mt mb ms (heap_blk_free s base) := by
  cases hA : s.alloclist.dropWhile (fun c => decide (c.base ≠ base)) with
  | nil =>
    have hres : heap_blk_free s base = s := by
      simp only [heap_blk_free, hA]
    rw [hres]
    exact hI
  | cons curr rest =>
    have hres : heap_blk_free s base =
        heap_blk_insert_free
          { s with alloclist := s.alloclist.takeWhile (fun c => decide (c.base ≠ base)) ++ rest,
                   used := s.used - curr.size } curr := by
      simp only [heap_blk_free, hA]
    have hsplitA : s.alloclist.takeWhile (fun c => decide (c.base ≠ base)) ++
        (curr :: rest) = s.alloclist := by
      conv_rhs => rw [← List.takeWhile_append_dropWhile (fun c => decide (c.base ≠ base))
        s.alloclist]
      rw [hA]
    have hmemP : ∀ x ∈ s.alloclist.takeWhile (fun c => decide (c.base ≠ base)),
        x ∈ s.alloclist := by
      intro x hx
      rw [← hsplitA]
      exact List.mem_append_left _ hx
    have hmemR : ∀ x ∈ rest, x ∈ s.alloclist := by
      intro x hx
      rw [← hsplitA]
      exact List.mem_append_right _ (List.mem_cons_of_mem _ hx)
    have hcurrmem : curr ∈ s.alloclist := by
      rw [← hsplitA]
      exact List.mem_append_right _ (List.mem_cons_self curr rest)
    have hsumA : sumSizes s.alloclist =
        sumSizes (s.alloclist.takeWhile (fun c => decide (c.base ≠ base))) +
          (curr.size + sumSizes rest) := by
      conv_lhs => rw [← hsplitA]
      rw [sumSizes_append, sumSizes_cons]
    -- single out curr in the pairwise-disjointness of the old blocks
    have hpw2 : (((s.freelist ++ s.alloclist.takeWhile (fun c => decide (c.base ≠ base))) ++
        [curr]) ++ rest).Pairwise disjB := by
      have e : ((s.freelist ++ s.alloclist.takeWhile (fun c => decide (c.base ≠ base))) ++
          [curr]) ++ rest =
          s.freelist ++ (s.alloclist.takeWhile (fun c => decide (c.base ≠ base)) ++
            (curr :: rest)) := by
        simp
      rw [e, hsplitA]
      exact hI.disj
    obtain ⟨hdcurr, hpwrest⟩ := pairwise_extract hpw2
    obtain ⟨c1, c2, c3, c4, c5, c6, c7⟩ :=
      heap_blk_insert_free_spec mt mb ms
        { s with alloclist := s.alloclist.takeWhile (fun c => decide (c.base ≠ base)) ++ rest,
                 used := s.used - curr.size } curr
        (by
          intro x hx
          rw [blocks] at hx
          rcases List.mem_append.mp hx with hx | hx
          · exact hI.okAll x (List.mem_append_left _ hx)
          · rcases List.mem_append.mp hx with hx | hx
            · exact hI.okAll x (List.mem_append_right _ (hmemP x hx))
            · exact hI.okAll x (List.mem_append_right _ (hmemR x hx)))
        hI.free_pos
        (by
          intro x hx
          rcases List.mem_append.mp hx with hx | hx
          · exact hI.alloc_pos x (hmemP x hx)
          · exact hI.alloc_pos x (hmemR x hx))
        hI.free_gap
        (by
          rw [blocks, ← List.append_assoc]
          refine hpwrest.sublist ?_
          rw [List.append_assoc])
        (hI.okAll curr (List.mem_append_right _ hcurrmem))
        (hI.alloc_pos curr hcurrmem)
        (by
          intro x hx
          rw [blocks, ← List.append_assoc] at hx
          exact hdcurr x hx)
    rw [hres]
    constructor
    · rw [c2, c1]
      show s.used - curr.size =
        sumSizes (s.alloclist.takeWhile (fun c => decide (c.base ≠ base)) ++ rest)
      rw [sumSizes_append]
      have hu := hI.used_eq
      omega
    · intro b hb
      rw [blocks, c1] at hb
      rcases List.mem_append.mp hb with hb | hb
      · exact c3 b hb
      · rcases List.mem_append.mp hb with hb | hb
        · exact hI.okAll b (List.mem_append_right _ (hmemP b hb))
        · exact hI.okAll b (List.mem_append_right _ (hmemR b hb))
    · exact c4
    · intro b hb
      rw [c1] at hb
      rcases List.mem_append.mp hb with hb | hb
      · exact hI.alloc_pos b (hmemP b hb)
      · exact hI.alloc_pos b (hmemR b hb)
    · exact c5
    · rw [blocks, c1]
      exact c6
    · rw [c7, c1]
      show sumSizes s.freelist + curr.size +
        sumSizes (s.alloclist.takeWhile (fun c => decide (c.base ≠ base)) ++ rest) = ms
      rw [sumSizes_append]
      have ht := hI.total
      omega

/-! ### The invariant holds in every reachable state -/

lemma heap_extend_init_inv (mt : Int) (mb ms : Nat) (h0 : TMState) (hms : 0 < ms) :
    HeapInv mt mb ms (heap_extend (heap_init h0) mt mb ms) := by
  have hres : heap_extend (heap_init h0) mt mb ms =
      { pool := (List.replicate TM_MAX_BLOCKS false).set 0 true,
        blocknum := h0.blocknum + 1,
        freelist := [⟨mt, mb, 0, ms, 0⟩], alloclist := [], used := 0 } := rfl
  rw [hres]
  constructor
  · rfl
  · intro b hb
    have hb2 : b = ⟨mt, mb, 0, ms, 0⟩ := by
      simpa [blocks] using hb
    subst hb2
    refine ⟨rfl, ?_, ?_, ?_⟩
    · show mb ≤ mb
      omega
    · show mb + ms ≤ mb + ms
      omega
    · show 0 = mb - mb
      omega
  · intro b hb
    have hb2 : b = ⟨mt, mb, 0, ms, 0⟩ := by simpa using hb
    subst hb2
    exact hms
  · intro b hb
    exact absurd hb (List.not_mem_nil b)
  · exact List.chain'_singleton _
  · simp [blocks]
  · show ms + 0 = ms
    omega

lemma texmem_alloc_zero (s : TexmemState) : (texmem_alloc s 0).1 = s := by
  rw [texmem_alloc, if_pos rfl]

lemma texmem_alloc_tm_main_type (s : TexmemState) (size : Nat) :
    (texmem_alloc s size).1.tm_main_type = s.tm_main_type := by
  rw [texmem_alloc]
  by_cases hz : size = 0
  · rw [if_pos hz]
  · rw [if_neg hz]

lemma texmem_alloc_heap (s : TexmemState) (size : Nat) (hz : size ≠ 0) :
    (texmem_alloc s size).1.heap =
      (heap_blk_alloc s.heap s.tm_main_type
        (if size < TM_ALIGNMENT then TM_ALIGNMENT else size) TM_ALIGNMENT).1 := by
  rw [texmem_alloc, if_neg hz]
  dsimp only
  rw [heap_alloc]
  cases hresult : heap_blk_alloc s.heap s.tm_main_type
      (if size < TM_ALIGNMENT then TM_ALIGNMENT else size) TM_ALIGNMENT with
  | mk h r => cases r <;> rfl

lemma texmem_free_tm_main_type (s : TexmemState) (ptr : Nat) :
    (texmem_free s ptr).tm_main_type = s.tm_main_type := by
  rw [texmem_free]
  by_cases hz : ptr = 0
  · rw [if_pos hz]
  · rw [if_neg hz]

lemma texmem_free_heap (s : TexmemState) (ptr : Nat) :
    (texmem_free s ptr).heap =
      if ptr = 0 then s.heap else heap_blk_free s.heap ptr := by
  rw [texmem_free]
  by_cases hz : ptr = 0
  · rw [if_pos hz, if_pos hz]
  · rw [if_neg hz, if_neg hz]
    rfl

/-- Master invariant theorem: in every state reachable from a successful
`texmem_init` by `texmem_alloc` and `texmem_free` calls, the heap satisfies
the invariant over the registered region. -/
lemma reachable_inv (s0 : TexmemState) (maintype : Int) (mb ms : Nat) (hms : 0 < ms)
    (s : TexmemState) (hr : Reachable s0 maintype mb ms s) :
    HeapInv s.tm_main_type mb ms s.heap := by
  induction hr with
  | init =>
    show HeapInv (texmem_init s0 (some mb) maintype ms).tm_main_type mb ms
      (texmem_init s0 (some mb) maintype ms).heap
    rw [texmem_init]
    exact heap_extend_init_inv _ mb ms s0.heap hms
  | alloc s1 size hr ih =>
    rw [texmem_alloc_tm_main_type]
    by_cases hz : size = 0
    · subst hz
      rw [texmem_alloc_zero]
      exact ih
    · rw [texmem_alloc_heap s1 size hz]
      refine heap_blk_alloc_inv _ mb ms s1.heap s1.tm_main_type _ TM_ALIGNMENT ih ?_
      by_cases hlt : size < TM_ALIGNMENT
      · rw [if_pos hlt]
        show 0 < 8
        omega
      · rw [if_neg hlt]
        omega
  | free s1 ptr hr ih =>
    rw [texmem_free_tm_main_type, texmem_free_heap]
    by_cases hz : ptr = 0
    · rw [if_pos hz]
      exact ih
    · rw [if_neg hz]
      exact heap_blk_free_inv _ mb ms s1.heap ptr ih

/-! ### Concrete states used by the witnesses -/

/-- A concrete initialised instance: 1024 bytes mapped at base 64, with a
non-CDRAM technology selector, so the primary type is `TM_TYPE_RAM`. -/
def tmInit : TexmemState := texmem_init tm0 (some 64) 1 1024

/-- `tmInit` after one 100-byte allocation (returned address 64). -/
def tmA : TexmemState := (texmem_alloc tmInit 100).1

/-- `tmA` after a further 200-byte allocation (returned address 164). -/
def tmAB : TexmemState := (texmem_alloc tmA 200).1

/-! ### C2: freeing everything coalesces back to a single block -/

/-- On a separated chain, the head base plus the total size plus the gaps is
bounded by the end of the last block. -/
lemma chain_gap_sum : ∀ (l : List Block) (x y : Block), (x :: l).Chain' gapB →
    (x :: l).getLast? = some y →
    x.base + sumSizes (x :: l) + l.length ≤ y.base + y.size := by
  intro l
  induction l with
  | nil =>
    intro x y h hy
    have hxy : x = y := by simpa using hy
    subst hxy
    rw [sumSizes_cons, sumSizes_nil]
    simp
  | cons z l2 ih =>
    intro x y h hy
    rw [List.chain'_cons] at h
    have hg : x.base + x.size < z.base := h.1
    have hih := ih z y h.2 (by simpa using hy)
    rw [sumSizes_cons]
    simp only [List.length_cons]
    omega

/-- C2: in any reachable state in which the allocated list is empty — i.e.
`texmem_free` has been called for every address `texmem_alloc` handed out,
in whatever order — the free list is exactly one block whose base is the
original region base and whose size is the whole mapped size. -/
theorem free_all_coalesces_to_single_block (s0 : TexmemState) (maintype : Int)
    (mb ms : Nat) (hms : 0 < ms) (s : TexmemState)
    (hr : Reachable s0 maintype mb ms s) (hempty : s.heap.alloclist = []) :
    ∃ b, s.heap.freelist = [b] ∧ b.base = mb ∧ b.size = ms := by
  have hI := reachable_inv s0 maintype mb ms hms s hr
  have htotal := hI.total
  rw [hempty, sumSizes_nil, Nat.add_zero] at htotal
  cases hfl : s.heap.freelist with
  | nil =>
    rw [hfl, sumSizes_nil] at htotal
    omega
  | cons x l =>
    cases l with
    | nil =>
      have hok := hI.okAll x (List.mem_append_left _ (by rw [hfl]; exact List.mem_cons_self x []))
      obtain ⟨-, hlb, hub, -⟩ := hok
      rw [hfl, sumSizes_cons, sumSizes_nil] at htotal
      exact ⟨x, rfl, by omega, by omega⟩
    | cons z l2 =>
      cases hlast : (x :: z :: l2).getLast? with
      | none => simp at hlast
      | some y =>
        have hchain : (x :: z :: l2).Chain' gapB := by
          rw [← hfl]; exact hI.free_gap
        have hsum := chain_gap_sum (z :: l2) x y hchain hlast
        have hymem : y ∈ s.heap.freelist := by
          rw [hfl]; exact List.mem_of_mem_getLast? hlast
        have hxmem : x ∈ s.heap.freelist := by
          rw [hfl]; exact List.mem_cons_self x (z :: l2)
        obtain ⟨-, hylb, hyub, -⟩ := hI.okAll y (List.mem_append_left _ hymem)
        obtain ⟨-, hxlb, -, -⟩ := hI.okAll x (List.mem_append_left _ hxmem)
        rw [hfl] at htotal
        rw [htotal] at hsum
        simp only [List.length_cons] at hsum
        omega

/-- Witness for C2: initialise (1024 bytes at base 64), allocate 100 bytes
(address 64), free it again; the free list is the single original block. -/
theorem free_all_coalesces_to_single_block_witness :
    ∃ b, (texmem_free tmA 64).heap.freelist = [b] ∧ b.base = 64 ∧ b.size = 1024 :=
  free_all_coalesces_to_single_block tm0 1 64 1024 (by omega) (texmem_free tmA 64)
    (Reachable.free tmA 64 (Reachable.alloc tmInit 100 Reachable.init))
    (by decide)

/-! ### C3: the used counter equals the allocated total -/

/-- C3: in every reachable state, `texmem_memused` (the O(1) running counter)
equals the sum of the size fields of the blocks on the allocated list. -/
theorem memused_eq_alloc_sum (s0 : TexmemState) (maintype : Int) (mb ms : Nat)
    (hms : 0 < ms) (s : TexmemState) (hr : Reachable s0 maintype mb ms s) :
    texmem_memused s = sumSizes s.heap.alloclist :=
  (reachable_inv s0 maintype mb ms hms s hr).used_eq

/-- Witness for C3 after two allocations: the counter reads 300 and the two
allocated blocks sum to 300. -/
theorem memused_eq_alloc_sum_witness :
    texmem_memused tmAB = sumSizes tmAB.heap.alloclist :=
  memused_eq_alloc_sum tm0 1 64 1024 (by omega) tmAB
    (Reachable.alloc tmA 200 (Reachable.alloc tmInit 100 Reachable.init))

/-! ### C7: the free list is sorted by strictly ascending base -/

/-- C7: in every reachable state the free list is sorted in strictly
ascending base order; insertion of freed blocks and the splits made during
allocation all preserve this ordering (they are the only operations of the
transition system). -/
theorem freelist_sorted_ascending (s0 : TexmemState) (maintype : Int) (mb ms : Nat)
    (hms : 0 < ms) (s : TexmemState) (hr : Reachable s0 maintype mb ms s) :
    s.heap.freelist.Chain' (fun a b => a.base < b.base) := by
  have h := (reachable_inv s0 maintype mb ms hms s hr).free_gap
  refine h.imp ?_
  intro a b hab
  have : a.base + a.size < b.base := hab
  show a.base < b.base
  omega

/-- Witness for C7: after allocating 100 and 200 bytes and freeing the first
block, the free list holds two blocks with strictly ascending bases. -/
theorem freelist_sorted_ascending_witness :
    (texmem_free tmAB 64).heap.freelist.Chain' (fun a b => a.base < b.base) :=
  freelist_sorted_ascending tm0 1 64 1024 (by omega) (texmem_free tmAB 64)
    (Reachable.free tmAB 64 (Reachable.alloc tmA 200 (Reachable.alloc tmInit 100
      Reachable.init)))

/-! ### C9: freeing null or an unknown address is a silent no-op -/

/-- C9: calling `texmem_free` with the null address, or with an address that
matches no block base on the allocated list (for example a second free of an
already freed address), returns without any change: the allocated list, the
free list, the pool and the used counter are all exactly as before. -/
theorem free_invalid_noop (s : TexmemState) (ptr : Nat)
    (h : ptr = 0 ∨ ∀ b ∈ s.heap.alloclist, b.base ≠ ptr) :
    texmem_free s ptr = s := by
  rcases h with rfl | h
  · rw [texmem_free, if_pos rfl]
  · rw [texmem_free]
    by_cases hz : ptr = 0
    · rw [if_pos hz]
    · rw [if_neg hz]
      have hdw : s.heap.alloclist.dropWhile (fun c => decide (c.base ≠ ptr)) = [] := by
        rw [List.dropWhile_eq_nil_iff]
        intro x hx
        simpa using h x hx
      have hfree : heap_free s.heap ptr = s.heap := by
        rw [heap_free]
        simp only [heap_blk_free, hdw]
      rw [hfree]

/-- Witness for C9: freeing address 500 — never returned by any allocation —
in the two-allocation state leaves it untouched, as does freeing null. -/
theorem free_invalid_noop_witness :
    texmem_free tmAB 500 = tmAB ∧ texmem_free tmAB 0 = tmAB :=
  ⟨free_invalid_noop tmAB 500 (Or.inr (by decide)),
    free_invalid_noop tmAB 0 (Or.inl rfl)⟩

/-! ### C10: all live blocks occupy pairwise disjoint address ranges -/

/-- C10: in every reachable state the address ranges `[base, base + size)` of
all blocks across the free list and the allocated list are pairwise
disjoint; in particular any two simultaneously live allocations do not
overlap. -/
theorem blocks_pairwise_disjoint (s0 : TexmemState) (maintype : Int) (mb ms : Nat)
    (hms : 0 < ms) (s : TexmemState) (hr : Reachable s0 maintype mb ms s) :
    (s.heap.freelist ++ s.heap.alloclist).Pairwise disjB :=
  (reachable_inv s0 maintype mb ms hms s hr).disj

/-- Witness for C10: after allocating 100 and 200 bytes the remaining free
block and the two live allocations are pairwise disjoint. -/
theorem blocks_pairwise_disjoint_witness :
    (tmAB.heap.freelist ++ tmAB.heap.alloclist).Pairwise disjB :=
  blocks_pairwise_disjoint tm0 1 64 1024 (by omega) tmAB
    (Reachable.alloc tmA 200 (Reachable.alloc tmInit 100 Reachable.init))

/-! ### Characterisation of a successful allocation -/

lemma ALIGN_le (x a : Nat) (ha : 0 < a) : x ≤ ALIGN x a := by
  rw [ALIGN]
  have h1 := Nat.div_add_mod (x + a - 1) a
  have h2 : (x + a - 1) % a < a := Nat.mod_lt _ ha
  rw [Nat.mul_comm]
  omega

lemma ALIGN_mod (x a : Nat) : ALIGN x a % a = 0 := by
  rw [ALIGN]
  exact Nat.mul_mod_left _ a

/-- A successful run of the search loop decomposes its input into a prefix of
non-fitting blocks and the first fitting block `curr1`; the returned block is
the alignment-shifted carve of `curr1` with exactly the requested size, and
the used counter grows by that size. -/
lemma heap_blk_alloc_loop_success (s : TMState) (type : Int) (size alignment : Nat) :
    ∀ (rem before : List Block) (blk : Block),
      (heap_blk_alloc_loop s type size alignment before rem).2 = some blk →
      (∃ pre1 curr1 rest1, rem = pre1 ++ curr1 :: rest1 ∧
        (∀ b ∈ pre1, ¬ (b.type = type ∧
          ALIGN b.base alignment - b.base + size ≤ b.size)) ∧
        (curr1.type = type ∧
          ALIGN curr1.base alignment - curr1.base + size ≤ curr1.size) ∧
        blk.base = curr1.base + (ALIGN curr1.base alignment - curr1.base) ∧
        blk.size = size) ∧
      (heap_blk_alloc_loop s type size alignment before rem).1.used = s.used + size := by
  intro rem
  induction rem with
  | nil =>
    intro before blk h
    rw [heap_blk_alloc_loop] at h
    exact absurd h (by simp)
  | cons curr rest ih =>
    intro before blk h
    rw [heap_blk_alloc_loop] at h ⊢
    by_cases hfit : curr.type = type ∧ ALIGN curr.base alignment - curr.base + size ≤ curr.size
    · rw [if_pos hfit] at h ⊢
      by_cases hskip : ALIGN curr.base alignment - curr.base ≠ 0
      · rw [if_pos hskip] at h ⊢
        cases hn : heap_blk_new s with
        | none =>
          rw [hn] at h
          exact absurd h (by simp)
        | some v =>
          obtain ⟨i1, s1⟩ := v
          obtain ⟨-, -, he1u⟩ := heap_blk_new_lists hn
          rw [hn] at h
          dsimp only at h ⊢
          by_cases hrem : ALIGN curr.base alignment - curr.base + size ≠ curr.size
          · simp only [if_pos hrem] at h ⊢
            cases hn2 : heap_blk_new s1 with
            | none =>
              rw [hn2] at h
              exact absurd h (by simp)
            | some v2 =>
              obtain ⟨i2, s2⟩ := v2
              obtain ⟨-, -, he2u⟩ := heap_blk_new_lists hn2
              rw [hn2] at h
              dsimp only at h ⊢
              obtain ⟨-, -, hu, hsnd⟩ :=
                heap_blk_alloc_commit_fields s2 before curr rest size
                  (ALIGN curr.base alignment - curr.base) i1 i2 hfit.2
              rw [hsnd] at h
              have hblk : blk = ⟨curr.type, curr.base +
                  (ALIGN curr.base alignment - curr.base),
                  curr.offset + (ALIGN curr.base alignment - curr.base), size, curr.id⟩ := by
                simpa [eq_comm] using h
              subst hblk
              refine ⟨⟨[], curr, rest, by simp, by simp, hfit, rfl, rfl⟩, ?_⟩
              rw [hu, he2u, he1u]
          · simp only [if_neg hrem] at h ⊢
            obtain ⟨-, -, hu, hsnd⟩ :=
              heap_blk_alloc_commit_fields s1 before curr rest size
                (ALIGN curr.base alignment - curr.base) i1 0 hfit.2
            rw [hsnd] at h
            have hblk : blk = ⟨curr.type, curr.base +
                (ALIGN curr.base alignment - curr.base),
                curr.offset + (ALIGN curr.base alignment - curr.base), size, curr.id⟩ := by
              simpa [eq_comm] using h
            subst hblk
            refine ⟨⟨[], curr, rest, by simp, by simp, hfit, rfl, rfl⟩, ?_⟩
            rw [hu, he1u]
      · rw [if_neg hskip] at h ⊢
        by_cases hrem : ALIGN curr.base alignment - curr.base + size ≠ curr.size
        · simp only [if_pos hrem] at h ⊢
          cases hn : heap_blk_new s with
          | none =>
            rw [hn] at h
            exact absurd h (by simp)
          | some v =>
            obtain ⟨i1, s1⟩ := v
            obtain ⟨-, -, he1u⟩ := heap_blk_new_lists hn
            rw [hn] at h
            dsimp only at h ⊢
            obtain ⟨-, -, hu, hsnd⟩ :=
              heap_blk_alloc_commit_fields s1 before curr rest size
                (ALIGN curr.base alignment - curr.base) 0 i1 hfit.2
            rw [hsnd] at h
            have hblk : blk = ⟨curr.type, curr.base +
                (ALIGN curr.base alignment - curr.base),
                curr.offset + (ALIGN curr.base alignment - curr.base), size, curr.id⟩ := by
              simpa [eq_comm] using h
            subst hblk
            refine ⟨⟨[], curr, rest, by simp, by simp, hfit, rfl, rfl⟩, ?_⟩
            rw [hu, he1u]
        · simp only [if_neg hrem] at h ⊢
          obtain ⟨-, -, hu, hsnd⟩ :=
            heap_blk_alloc_commit_fields s before curr rest size
              (ALIGN curr.base alignment - curr.base) 0 0 hfit.2
          rw [hsnd] at h
          have hblk : blk = ⟨curr.type, curr.base +
              (ALIGN curr.base alignment - curr.base),
              curr.offset + (ALIGN curr.base alignment - curr.base), size, curr.id⟩ := by
            simpa [eq_comm] using h
          subst hblk
          exact ⟨⟨[], curr, rest, by simp, by simp, hfit, rfl, rfl⟩, hu⟩
    · rw [if_neg hfit] at h ⊢
      obtain ⟨⟨pre1, curr1, rest1, hdec, hpre1, hfit1, hbase, hsz⟩, hused⟩ :=
        ih (before ++ [curr]) blk h
      refine ⟨⟨curr :: pre1, curr1, rest1, by rw [hdec, List.cons_append], ?_,
        hfit1, hbase, hsz⟩, hused⟩
      intro b hb
      rcases List.mem_cons.mp hb with rfl | hb
      · exact hfit
      · exact hpre1 b hb

/-- The first element satisfying the fit test is uniquely determined by any
split into a non-fitting prefix and a fitting head. -/
lemma first_split_unique {α : Type} {P : α → Prop} :
    ∀ (p1 p2 : List α) (c1 c2 : α) (r1 r2 : List α),
      p1 ++ c1 :: r1 = p2 ++ c2 :: r2 →
      (∀ b ∈ p1, ¬ P b) → (∀ b ∈ p2, ¬ P b) → P c1 → P c2 → c1 = c2 := by
  intro p1
  induction p1 with
  | nil =>
    intro p2 c1 c2 r1 r2 he h1 h2 hc1 hc2
    cases p2 with
    | nil =>
      simp only [List.nil_append, List.cons.injEq] at he
      exact he.1
    | cons q p2t =>
      simp only [List.nil_append, List.cons_append, List.cons.injEq] at he
      exact absurd (he.1 ▸ hc1) (h2 q (List.mem_cons_self q p2t))
  | cons q p1t ih =>
    intro p2 c1 c2 r1 r2 he h1 h2 hc1 hc2
    cases p2 with
    | nil =>
      simp only [List.cons_append, List.nil_append, List.cons.injEq] at he
      exact absurd (he.1.symm ▸ hc2) (h1 q (List.mem_cons_self q p1t))
    | cons q2 p2t =>
      simp only [List.cons_append, List.cons.injEq] at he
      exact ih p2t c1 c2 r1 r2 he.2 (fun b hb => h1 b (List.mem_cons_of_mem q hb))
        (fun b hb => h2 b (List.mem_cons_of_mem q2 hb)) hc1 hc2

lemma texmem_alloc_some (s : TexmemState) (size addr : Nat)
    (h : (texmem_alloc s size).2 = some addr) :
    size ≠ 0 ∧ ∃ blk,
      (heap_blk_alloc s.heap s.tm_main_type
        (if size < TM_ALIGNMENT then TM_ALIGNMENT else size) TM_ALIGNMENT).2 = some blk ∧
      addr = blk.base := by
  by_cases hz : size = 0
  · rw [texmem_alloc, if_pos hz] at h
    exact absurd h (by simp)
  · rw [texmem_alloc, if_neg hz] at h
    dsimp only at h
    rw [heap_alloc] at h
    refine ⟨hz, ?_⟩
    cases hres : heap_blk_alloc s.heap s.tm_main_type
        (if size < TM_ALIGNMENT then TM_ALIGNMENT else size) TM_ALIGNMENT with
    | mk s1 r =>
      rw [hres] at h
      cases r with
      | none => exact absurd h (by simp)
      | some blk =>
        refine ⟨blk, rfl, ?_⟩
        have h2 : some blk.base = some addr := by simpa using h
        simpa using h2.symm

/-! ### C4: returned addresses respect the alignment -/

/-- C4: every non-null address returned by `texmem_alloc` is a multiple of
`TM_ALIGNMENT = 8`, the alignment the public API always passes to the
allocation engine: the engine computes the skip that rounds the candidate
base up to the alignment and shifts the block base by exactly that skip
before returning it. -/
theorem alloc_addr_aligned (s : TexmemState) (size addr : Nat)
    (h : (texmem_alloc s size).2 = some addr) : addr % TM_ALIGNMENT = 0 := by
  obtain ⟨hz, blk, hres, haddr⟩ := texmem_alloc_some s size addr h
  obtain ⟨⟨pre1, curr1, rest1, -, -, -, hbase, -⟩, -⟩ :=
    heap_blk_alloc_loop_success s.heap s.tm_main_type
      (if size < TM_ALIGNMENT then TM_ALIGNMENT else size) TM_ALIGNMENT
      s.heap.freelist [] blk hres
  rw [haddr, hbase]
  have h1 : curr1.base ≤ ALIGN curr1.base TM_ALIGNMENT :=
    ALIGN_le curr1.base TM_ALIGNMENT (by decide)
  have h2 : ALIGN curr1.base TM_ALIGNMENT % TM_ALIGNMENT = 0 := ALIGN_mod _ _
  have h3 : curr1.base + (ALIGN curr1.base TM_ALIGNMENT - curr1.base) =
      ALIGN curr1.base TM_ALIGNMENT := by omega
  rw [h3]
  exact h2

/-- Witness for C4: allocating 100 bytes from the fresh region returns
address 64, a multiple of 8. -/
theorem alloc_addr_aligned_witness :
    (texmem_alloc tmInit 100).2 = some 64 ∧ (64 : Nat) % TM_ALIGNMENT = 0 :=
  ⟨by decide, alloc_addr_aligned tmInit 100 64 (by decide)⟩

/-! ### C5: sizes are clamped to a minimum of 8, not rounded up -/

/-- Counterexample for C5 as stated: the claim predicts that a request of 10
bytes is rounded up to the next multiple of 8 — that is 16 — before being
delegated, so `texmem_memused` would grow by 16; the code only raises sizes
below 8 and passes 10 through unchanged, so the counter grows by 10. -/
theorem alloc_size_not_rounded :
    texmem_memused (texmem_alloc tmInit 10).1 = 10 ∧
      ((10 + TM_ALIGNMENT - 1) / TM_ALIGNMENT) * TM_ALIGNMENT = 16 ∧
      (10 : Nat) ≠ 16 := by
  refine ⟨by decide, by decide, by decide⟩

/-- C5 as amended: for a non-zero request `texmem_alloc` raises sizes below
`TM_ALIGNMENT = 8` to 8 and passes all other sizes through unchanged, so on
success the allocated block size — and the growth of `texmem_memused` — is
`max size 8`, not the next multiple of 8. -/
theorem alloc_size_clamped (s : TexmemState) (size addr : Nat)
    (h : (texmem_alloc s size).2 = some addr) :
    texmem_memused (texmem_alloc s size).1 =
      texmem_memused s + (if size < TM_ALIGNMENT then TM_ALIGNMENT else size) := by
  obtain ⟨hz, blk, hres, -⟩ := texmem_alloc_some s size addr h
  obtain ⟨-, hused⟩ :=
    heap_blk_alloc_loop_success s.heap s.tm_main_type
      (if size < TM_ALIGNMENT then TM_ALIGNMENT else size) TM_ALIGNMENT
      s.heap.freelist [] blk hres
  show (texmem_alloc s size).1.heap.used = s.heap.used +
    (if size < TM_ALIGNMENT then TM_ALIGNMENT else size)
  rw [texmem_alloc_heap s size hz]
  exact hused

/-- Witness for the amended C5: requesting 10 bytes succeeds at address 64
and grows the counter by exactly 10 (the clamp leaves 10 unchanged). -/
theorem alloc_size_clamped_witness :
    texmem_memused (texmem_alloc tmInit 10).1 =
      texmem_memused tmInit + (if 10 < TM_ALIGNMENT then TM_ALIGNMENT else 10) :=
  alloc_size_clamped tmInit 10 64 (by decide)

/-! ### C6: texmem_init does not propagate a mapping failure -/

/-- C6 (documenting the code bug): although allocator.h declares
`uint32_t texmem_init(...)` and the spec says a mapping failure is
propagated to the caller, the C body contains no return statement at all, so
the embedding (faithful to the body) returns only the state, and on a failed
mapping (`gpu_alloc_map` returning NULL, modelled as `none`) the function
does not fail: with assertions disabled it proceeds to register the whole
region as one free block at the null base. -/
theorem texmem_init_mapfail_proceeds :
    (texmem_init tm0 none 1 1024).tm_main = 0 ∧
      (texmem_init tm0 none 1 1024).heap.freelist = [⟨TM_TYPE_RAM, 0, 0, 1024, 0⟩] := by
  refine ⟨rfl, by decide⟩

/-! ### C8: the search is first-fit -/

/-- C8: `heap_blk_alloc` is first-fit: if the free list splits into a prefix
of blocks that do not fit (wrong region type, or too small for the alignment
skip from their own base plus the size) followed by a fitting block `curr`,
then whenever the allocation succeeds the returned block is carved from
`curr` — its base is `curr.base` rounded up to the alignment and its size is
the requested size — never from a later, tighter-fitting block. -/
theorem alloc_first_fit (s : TMState) (type : Int) (size alignment : Nat)
    (pre : List Block) (curr : Block) (rest : List Block)
    (hfl : s.freelist = pre ++ curr :: rest)
    (hpre : ∀ b ∈ pre, ¬ (b.type = type ∧
      ALIGN b.base alignment - b.base + size ≤ b.size))
    (hcurr : curr.type = type ∧
      ALIGN curr.base alignment - curr.base + size ≤ curr.size)
    (blk : Block) (h : (heap_blk_alloc s type size alignment).2 = some blk) :
    blk.base = curr.base + (ALIGN curr.base alignment - curr.base) ∧
      blk.size = size := by
  obtain ⟨⟨pre1, curr1, rest1, hdec, hpre1, hfit1, hbase, hsz⟩, -⟩ :=
    heap_blk_alloc_loop_success s type size alignment s.freelist [] blk h
  rw [hfl] at hdec
  have hcc : curr = curr1 :=
    first_split_unique pre pre1 curr curr1 rest rest1 hdec hpre hpre1 hcurr hfit1
  rw [← hcc] at hbase
  exact ⟨hbase, hsz⟩

/-- A state whose free list starts with a block too small for the request
followed by a fitting one. -/
def twoBlockState : TMState :=
  { pool := List.replicate 8 false, blocknum := 0,
    freelist := [⟨1, 64, 0, 4, 0⟩, ⟨1, 100, 36, 50, 1⟩], alloclist := [], used := 0 }

/-- Witness for C8: in `twoBlockState` the head block (4 bytes) cannot hold
an 8-byte request, the second (50 bytes at base 100) can after a 4-byte
alignment skip; the allocation succeeds at base 104 = ALIGN 100 8 with size
8, carved from the second block. -/
theorem alloc_first_fit_witness :
    (heap_blk_alloc twoBlockState 1 8 8).2 = some ⟨1, 104, 40, 8, 1⟩ ∧
      (104 : Nat) = 100 + (ALIGN 100 8 - 100) ∧ (8 : Nat) = 8 := by
  refine ⟨by decide, ?_, rfl⟩
  have h := alloc_first_fit twoBlockState 1 8 8 [⟨1, 64, 0, 4, 0⟩] ⟨1, 100, 36, 50, 1⟩ []
    rfl (by decide) (by decide) ⟨1, 104, 40, 8, 1⟩ (by decide)
  exact h.1.symm ▸ rfl

end VglAlloc
